import Mathlib

set_option maxRecDepth 8192

/-!
Verification of `scripts/fix-colors.py`, a one-shot CSS rewriting script.

The script applies an ordered table of regular-expression substitutions
(`color_replacements`) to the full text of each discovered stylesheet via
`re.sub`, counts matches with `re.findall`, writes a file back only when the
text changed, and finally applies one scoped substitution to `App.css`.

The development embeds the script shallowly:

* characters are Lean `Char`s and file contents are `List Char`;
* the regex dialect actually used by the script (literal characters, `\s*`,
  `\s+`, the word-boundary assertion `\b` and the repetition `[^}]+`) is
  embedded as `RElem` lists, and `matchEnd` / `subAll` / `cnt` implement the
  leftmost, greedy, backtracking, non-overlapping semantics of Python's
  `re.sub` and `re.findall` for such patterns (recursion is structural on an
  explicit fuel argument so that everything evaluates by `decide`);
* the word and whitespace character classes are taken over the ASCII range,
  which covers every pattern and file the script manipulates;
* the filesystem is a record of optional files carrying per-file read/write
  error flags, and `fix_colors_in_file` / `main` mirror the Python control
  flow, with `Except` modelling an uncaught exception escaping `main`.
-/

namespace FixColors

/-- ASCII whitespace, the characters matched by the regex class `\s` on the
script's input. -/
def isSpaceCh (c : Char) : Bool :=
  c = ' ' || c = '\t' || c = '\n' || c = '\x0b' || c = '\x0c' || c = '\r'

/-- ASCII word characters, the class used by the regex word boundary `\b`. -/
def isWordCh (c : Char) : Bool :=
  ('a' ≤ c && c ≤ 'z') || ('A' ≤ c && c ≤ 'Z') || ('0' ≤ c && c ≤ '9') || c = '_'

/-- Word-character class of an optional character (`none` means that there is
no character there, before the start or past the end of the text). -/
def pwOf : Option Char → Bool
  | none => false
  | some c => isWordCh c

/-- One element of a compiled pattern.  The script's regexes only use literal
characters, `\s*`, `\s+`, the word boundary `\b` and the repetition `[^}]+`;
`nbStar` is the internal state reached once `[^}]+` has consumed its first
character. -/
inductive RElem where
  | lit (c : Char)
  | wsStar
  | wsPlus
  | wb
  | nbPlus
  | nbStar
deriving DecidableEq

/-- Backtracking anchored matcher.  `matchEndF f ps prev s` tries to match the
pattern `ps` at the very start of `s`, where `prev` is the character standing
just before `s` (needed by word boundaries), and returns the remainder of `s`
after the match, preferring longer repetitions first exactly as Python's
backtracking `re` engine does.  `f` is structural recursion fuel; any
`f > ps.length + s.length` gives the true answer. -/
def matchEndF : Nat → List RElem → Option Char → List Char → Option (List Char)
  | 0, _, _, _ => none
  | _ + 1, [], _, s => some s
  | f + 1, .lit c :: ps, _, s =>
      match s with
      | [] => none
      | a :: t => if a = c then matchEndF f ps (some a) t else none
  | f + 1, .wb :: ps, prev, s =>
      if pwOf prev != pwOf s.head? then matchEndF f ps prev s else none
  | f + 1, .wsStar :: ps, prev, s =>
      match s with
      | [] => matchEndF f ps prev []
      | a :: t =>
          if isSpaceCh a then
            match matchEndF f (.wsStar :: ps) (some a) t with
            | some r => some r
            | none => matchEndF f ps prev (a :: t)
          else matchEndF f ps prev (a :: t)
  | f + 1, .wsPlus :: ps, _, s =>
      match s with
      | [] => none
      | a :: t => if isSpaceCh a then matchEndF f (.wsStar :: ps) (some a) t else none
  | f + 1, .nbPlus :: ps, _, s =>
      match s with
      | [] => none
      | a :: t => if a = '\x7d' then none else matchEndF f (.nbStar :: ps) (some a) t
  | f + 1, .nbStar :: ps, prev, s =>
      match s with
      | [] => matchEndF f ps prev []
      | a :: t =>
          if a = '\x7d' then matchEndF f ps prev (a :: t)
          else
            match matchEndF f (.nbStar :: ps) (some a) t with
            | some r => some r
            | none => matchEndF f ps prev (a :: t)

/-- Canonical-fuel front end for `matchEndF`. -/
def matchEnd (ps : List RElem) (prev : Option Char) (s : List Char) :
    Option (List Char) :=
  matchEndF (ps.length + s.length + 1) ps prev s

/-- Scanner of `re.sub`: walk the text left to right, at each position attempt
an anchored match; on success emit the replacement and resume after the
matched span, otherwise copy one character.  `f` is recursion fuel.  (The
script's patterns never match the empty string, so a match always consumes at
least one character; the `rem.length ≤ t.length` guard only serves to make the
recursion structurally obvious.) -/
def subF : Nat → List RElem → List Char → List Char → List Char
  | 0, _, _, s => s
  | _ + 1, _, _, [] => []
  | f + 1, p, r, a :: t =>
      match matchEnd p none (a :: t) with
      | some rem =>
          if rem.length ≤ t.length then r ++ subF f p r rem else a :: subF f p r t
      | none => a :: subF f p r t

/-- Python's `re.sub pattern r`: replace every non-overlapping match. -/
def subAll (p : List RElem) (r : List Char) (s : List Char) : List Char :=
  subF (s.length + 1) p r s

/-- Scanner of `re.findall`: same walk as `subF`, counting the matches. -/
def cntF : Nat → List RElem → List Char → Nat
  | 0, _, _ => 0
  | _ + 1, _, [] => 0
  | f + 1, p, a :: t =>
      match matchEnd p none (a :: t) with
      | some rem => if rem.length ≤ t.length then 1 + cntF f p rem else cntF f p t
      | none => cntF f p t

/-- Number of non-overlapping matches of `p` in `s` (`len(re.findall(...))`). -/
def cnt (p : List RElem) (s : List Char) : Nat :=
  cntF (s.length + 1) p s

/-- Does `p` match anywhere in `s` (at any start position)? -/
def hasMatch (p : List RElem) : List Char → Bool
  | [] => (matchEnd p none []).isSome
  | a :: t => (matchEnd p none (a :: t)).isSome || hasMatch p t

/-- Viability check: `viaF f ps pw u = false` certifies that an attempt to
match `ps` starting at `u` (where `pw` is the word-class of the previous
character) dies strictly inside `u`, whatever text follows `u`.  It returns
`true` as soon as the pattern could complete or could still be alive when `u`
runs out. -/
def viaF : Nat → List RElem → Bool → List Char → Bool
  | 0, _, _, _ => true
  | _ + 1, [], _, _ => true
  | _ + 1, _, _, [] => true
  | f + 1, .lit c :: ps, _, a :: t => a = c && viaF f ps (isWordCh a) t
  | f + 1, .wb :: ps, pw, a :: t => (isWordCh a != pw) && viaF f ps pw (a :: t)
  | f + 1, .wsStar :: ps, pw, a :: t =>
      (isSpaceCh a && viaF f (.wsStar :: ps) false t) || viaF f ps pw (a :: t)
  | f + 1, .wsPlus :: ps, _, a :: t => isSpaceCh a && viaF f (.wsStar :: ps) false t
  | f + 1, .nbPlus :: ps, _, a :: t =>
      (a != '\x7d') && viaF f (.nbStar :: ps) (isWordCh a) t
  | f + 1, .nbStar :: ps, pw, a :: t =>
      ((a != '\x7d') && viaF f (.nbStar :: ps) (isWordCh a) t) || viaF f ps pw (a :: t)

/-- Canonical-fuel front end for `viaF`. -/
def viable (ps : List RElem) (pw : Bool) (s : List Char) : Bool :=
  viaF (ps.length + s.length + 1) ps pw s

/-- All matcher states `(pattern suffix, word-class of last consumed char)`
reachable while matching the pattern `ps` whose scan started with previous
word-class `pw`. -/
def statesFrom : List RElem → Bool → List (List RElem × Bool)
  | [], pw => [([], pw)]
  | .lit c :: t, pw => (.lit c :: t, pw) :: statesFrom t (isWordCh c)
  | .wb :: t, pw => (.wb :: t, pw) :: statesFrom t pw
  | .wsStar :: t, pw =>
      (.wsStar :: t, pw) :: (.wsStar :: t, false) ::
        (statesFrom t pw ++ statesFrom t false)
  | .wsPlus :: t, pw =>
      (.wsPlus :: t, pw) :: (.wsStar :: t, false) :: statesFrom t false
  | .nbPlus :: t, pw =>
      (.nbPlus :: t, pw) :: (.nbStar :: t, true) :: (.nbStar :: t, false) ::
        (statesFrom t true ++ statesFrom t false)
  | .nbStar :: t, pw =>
      (.nbStar :: t, pw) :: (.nbStar :: t, true) :: (.nbStar :: t, false) ::
        (statesFrom t true ++ (statesFrom t false ++ statesFrom t pw))

/-- No match of the pattern `p` can overlap the fixed string `x`: no matcher
state of `p` entering `x` from the left survives being fed `x`, and no match
of `p` can start at any position inside `x`.  This is used both with `x` a
replacement string (so no match crosses or starts inside an inserted
replacement) and with `x` a distinguished substring of the text (so `x`
survives the substitution untouched). -/
def overlapFree (p : List RElem) (x : List Char) : Bool :=
  ((statesFrom p false).all fun st => st.1.isEmpty || !(viable st.1 st.2 x)) &&
    (x.tails.all fun u => u.isEmpty || !(viable p false u))

/-- Does the pattern start with a literal character?  All of the script's
patterns do; such a pattern can neither match the empty string nor match
without consuming at least one character. -/
def litStart : List RElem → Bool
  | .lit _ :: _ => true
  | _ => false

/-- First literal character of a pattern. -/
def firstLit : List RElem → Option Char
  | .lit c :: _ => some c
  | _ => none

/-- Successor states of one matcher state: the states the matcher can be in
after processing one step from the given state. -/
def succStates : List RElem × Bool → List (List RElem × Bool)
  | ([], _) => []
  | (.lit c :: u, _) => [(u, isWordCh c)]
  | (.wb :: u, γ) => [(u, γ)]
  | (.wsStar :: u, γ) => [(.wsStar :: u, false), (u, γ)]
  | (.wsPlus :: u, _) => [(.wsStar :: u, false)]
  | (.nbPlus :: u, _) => [(.nbStar :: u, true), (.nbStar :: u, false)]
  | (.nbStar :: u, γ) => [(.nbStar :: u, true), (.nbStar :: u, false), (u, γ)]

/-- Literal pattern: one `RElem.lit` per character. -/
def lits (s : String) : List RElem := s.toList.map .lit

/-- Compiled form of the gradient regex
`linear-gradient\(135deg,\s*#a855f7\s+0%,\s*#9333ea\s+100%\)`. -/
def gradientPat : List RElem :=
  lits "linear-gradient(135deg," ++ [.wsStar] ++ lits "#a855f7" ++ [.wsPlus] ++
    lits "0%," ++ [.wsStar] ++ lits "#9333ea" ++ [.wsPlus] ++ lits "100%)"

/-- Compiled form of a bare hex-color regex `<hex>\b`. -/
def hexPat (hex : String) : List RElem := lits hex ++ [.wb]

/-- Compiled form of an rgba regex
`rgba\(\s*<r>,\s*<g>,\s*<b>,\s*<a>\)` (with `.` escaped in `<a>`). -/
def rgbaPat (rc gc bc ac : String) : List RElem :=
  lits "rgba(" ++ [.wsStar] ++ lits (rc ++ ",") ++ [.wsStar] ++ lits (gc ++ ",") ++
    [.wsStar] ++ lits (bc ++ ",") ++ [.wsStar] ++ lits (ac ++ ")")

/-- One pattern/replacement pair of the substitution table. -/
structure Rule where
  pat : List RElem
  repl : List Char
deriving DecidableEq

/-- The ordered replacement table `color_replacements` of the script
(a Python `dict`, iterated in insertion order; order matters, specific before
general). -/
def color_replacements : List Rule :=
  [⟨gradientPat, ("var(--primary-gradient)").toList⟩,
   ⟨hexPat "#9333ea", ("var(--primary)").toList⟩,
   ⟨hexPat "#a855f7", ("var(--primary-light)").toList⟩,
   ⟨hexPat "#c084fc", ("var(--primary-lighter)").toList⟩,
   ⟨hexPat "#7c3aed", ("var(--primary-dark)").toList⟩,
   ⟨hexPat "#f3e8ff", ("var(--primary-bg-light)").toList⟩,
   ⟨hexPat "#faf5ff", ("var(--primary-bg-lighter)").toList⟩,
   ⟨hexPat "#e9d5ff", ("var(--primary-border)").toList⟩,
   ⟨rgbaPat "243" "232" "255" "0.4",
     ("color-mix(in srgb, var(--primary-bg-light) 40%, transparent)").toList⟩,
   ⟨rgbaPat "233" "213" "255" "0.6",
     ("color-mix(in srgb, var(--primary-border) 60%, transparent)").toList⟩,
   ⟨rgbaPat "168" "85" "247" "0.05",
     ("color-mix(in srgb, var(--primary-light) 5%, transparent)").toList⟩,
   ⟨rgbaPat "168" "85" "247" "0.1",
     ("color-mix(in srgb, var(--primary) 10%, transparent)").toList⟩,
   ⟨rgbaPat "168" "85" "247" "0.15",
     ("color-mix(in srgb, var(--primary-light) 15%, transparent)").toList⟩,
   ⟨rgbaPat "168" "85" "247" "0.2",
     ("color-mix(in srgb, var(--primary-light) 20%, transparent)").toList⟩,
   ⟨rgbaPat "168" "85" "247" "0.3",
     ("color-mix(in srgb, var(--primary) 30%, transparent)").toList⟩,
   ⟨rgbaPat "147" "51" "234" "0.02",
     ("color-mix(in srgb, var(--primary) 2%, transparent)").toList⟩,
   ⟨rgbaPat "147" "51" "234" "0.05",
     ("color-mix(in srgb, var(--primary) 5%, transparent)").toList⟩,
   ⟨rgbaPat "147" "51" "234" "0.1",
     ("color-mix(in srgb, var(--primary) 10%, transparent)").toList⟩,
   ⟨rgbaPat "147" "51" "234" "0.15",
     ("color-mix(in srgb, var(--primary) 15%, transparent)").toList⟩,
   ⟨rgbaPat "147" "51" "234" "0.2", ("var(--primary-shadow)").toList⟩,
   ⟨rgbaPat "147" "51" "234" "0.3", ("var(--primary-shadow-hover)").toList⟩]

/-- One iteration of the replacement loop of `fix_colors_in_file`: run
`re.sub`; when the text changed, add the `re.findall` count taken on the
pre-replacement text and keep the new text. -/
def applyRule (st : List Char × Nat) (ru : Rule) : List Char × Nat :=
  let nc := subAll ru.pat ru.repl st.1
  if nc ≠ st.1 then (nc, st.2 + cnt ru.pat st.1) else st

/-- The pure content transformation performed by `fix_colors_in_file` on a
file's text: final text and reported `changes_made`. -/
def fixContent (s : List Char) : List Char × Nat :=
  color_replacements.foldl applyRule (s, 0)

/-- Text-only version of `fixContent` (the fold of `re.sub` alone). -/
def fixText (rs : List Rule) (s : List Char) : List Char :=
  rs.foldl (fun c ru => subAll ru.pat ru.repl c) s

/-- Compiled form of the `App.css` regex
`\.app-loading-spinner \{[^}]+color:\s*#9333ea;`. -/
def appPat : List RElem :=
  lits ".app-loading-spinner \x7b" ++ [.nbPlus] ++ lits "color:" ++ [.wsStar] ++
    lits "#9333ea;"

/-- The replacement text of the `App.css` substitution,
`.app-loading-spinner {\n  color: var(--primary);`. -/
def appRepl : List Char := (".app-loading-spinner \x7b\n  color: var(--primary);").toList

/-- The scoped `App.css` rewrite (`re.sub` with `appPat`/`appRepl`). -/
def appSub (s : List Char) : List Char := subAll appPat appRepl s

/-- The `color: #9333ea;` property text of the scenarios. -/
def colorProp : List Char := ("color: #9333ea;").toList

/-- The rewritten property text `color: var(--primary);`. -/
def colorPropNew : List Char := ("color: var(--primary);").toList

/-- The literal header of the `App.css` pattern, `.app-loading-spinner \x7b`. -/
def appHdr : List Char := (".app-loading-spinner \x7b").toList

/-- The part of the `App.css` pattern standing after `[^\x7d]+`:
`color:\s*#9333ea;`. -/
def tailPat : List RElem := lits "color:" ++ [.wsStar] ++ lits "#9333ea;"

/-- Detector for the property text `color:` + `\s*` + `#9333ea;` starting at
the head of the text. -/
def startsTrip (s : List Char) : Bool :=
  (matchEnd tailPat none s).isSome

/-- Is there an occurrence of `color:\s*#9333ea;` before the first `}`?
This is exactly the condition under which the greedy `[^}]+` of the `App.css`
pattern could stretch further right. -/
def hasTripBF : List Char → Bool
  | [] => false
  | a :: t => if a = '\x7d' then false else startsTrip (a :: t) || hasTripBF t

/-- Hexadecimal digits, the claim's notion of a "hex digit". -/
def isHexDigitCh (c : Char) : Bool :=
  ('0' ≤ c && c ≤ '9') || ('a' ≤ c && c ≤ 'f') || ('A' ≤ c && c ≤ 'F')

/-- The first literal of the pattern differs from the first character of the
replacement (so a substitution that fired always changes the text). -/
def headDiff (p : List RElem) (r : List Char) : Bool :=
  match firstLit p, r.head? with
  | some c, some d => c != d
  | _, _ => false

/-- All decidable side conditions on a rule table used by the idempotence and
counting theorems: every pattern starts with a literal, every replacement is
non-empty and starts with a character different from its pattern's first
literal, and no pattern can overlap any rule's replacement string. -/
def tableSafe (rs : List Rule) : Bool :=
  rs.all fun ri =>
    litStart ri.pat && headDiff ri.pat ri.repl && !ri.repl.isEmpty &&
      rs.all fun rj => overlapFree ri.pat rj.repl

/-- The character standing before the rest of the text after consuming `w`. -/
def prevAfter (prev : Option Char) (w : List Char) : Option Char :=
  match w.getLast? with
  | some c => some c
  | none => prev

/-- One step of the specification counting fold: always add the number of
matches found on the pre-replacement text. -/
def countStep (st : List Char × Nat) (ru : Rule) : List Char × Nat :=
  (subAll ru.pat ru.repl st.1, st.2 + cnt ru.pat st.1)

/-- The specification's reported count: the sum, over the rules in order, of
the number of matches of each rule's pattern in that rule's pre-replacement
input text. -/
def specCount (rs : List Rule) (s : List Char) : Nat :=
  (rs.foldl countStep (s, 0)).2

/-- The exact gradient expression of the scenarios. -/
def gradText : List Char :=
  ("linear-gradient(135deg, #a855f7 0%, #9333ea 100%)").toList

/-! Filesystem model.  A file carries its text plus two fault flags modelling
an unexpected I/O or encoding error raised while reading or writing it. -/

/-- One file on disk. -/
structure FileSt where
  content : List Char
  readFails : Bool
  writeFails : Bool
deriving DecidableEq

/-- The reported outcome line for one processed file. -/
inductive Outcome where
  | changed (n : Nat)
  | skipped
  | errored
  | spinnerFixed
deriving DecidableEq

/-- Reading a file; raises (models `open(...,'r').read()` throwing). -/
def readF (f : FileSt) : Except Unit (List Char) :=
  if f.readFails then .error () else .ok f.content

/-- Writing a file; raises (models `open(...,'w').write()` throwing). -/
def writeF (f : FileSt) (c : List Char) : Except Unit FileSt :=
  if f.writeFails then .error () else .ok { f with content := c }

/-- The body of `fix_colors_in_file` before its `except` clause: read, apply
every rule, compare with the original, write back only on change.  Returns
the updated file, the reported outcome, whether a write happened, and the
Python return value; `Except.error` is a raised exception. -/
def fix_colors_core (f : FileSt) : Except Unit (FileSt × Outcome × Bool × Bool) :=
  match readF f with
  | .error e => .error e
  | .ok content =>
      if (fixContent content).1 ≠ content then
        match writeF f (fixContent content).1 with
        | .error e => .error e
        | .ok f2 => .ok (f2, .changed (fixContent content).2, true, true)
      else .ok (f, .skipped, false, false)

/-- The function `fix_colors_in_file`: any exception of the body is caught,
reported as this file's outcome, and turned into the return value `False`. -/
def fix_colors_in_file (f : FileSt) : FileSt × Outcome × Bool × Bool :=
  match fix_colors_core f with
  | .ok r => r
  | .error _ => (f, .errored, false, false)

/-- The filesystem the script runs against: the component directory (`none`
when `src/components` does not exist), the dark-mode file and `App.css`
(each `none` when missing).  Component files are listed in `os.listdir`
order together with their names. -/
structure FS where
  components : Option (List (String × FileSt))
  darkMode : Option FileSt
  appCss : Option FileSt
deriving DecidableEq

/-- Phase 1 of `main`: process every `.css` file of the component directory;
a missing directory is skipped silently. -/
def processComponents :
    Option (List (String × FileSt)) → Option (List (String × FileSt)) × List Outcome
  | none => (none, [])
  | some files =>
      let step := fun (acc : List (String × FileSt) × List Outcome)
          (nf : String × FileSt) =>
        if nf.1.endsWith ".css" then
          let r := fix_colors_in_file nf.2
          (acc.1 ++ [(nf.1, r.1)], acc.2 ++ [r.2.1])
        else (acc.1 ++ [nf], acc.2)
      (some (files.foldl step ([], []) ).1, (files.foldl step ([], [])).2)

/-- Phase 2 of `main`: `dark-mode.css`, when it exists. -/
def processDark : Option FileSt → Option FileSt × List Outcome
  | none => (none, [])
  | some f =>
      let r := fix_colors_in_file f
      (some r.1, [r.2.1])

/-- Phase 3 of `main`: the `App.css` special case.  There is no `try` here:
read, substitute, and write back unconditionally; any read or write error
escapes.  On success the script prints the fixed-spinner line. -/
def processApp : Option FileSt → Except Unit (Option FileSt × List Outcome)
  | none => .ok (none, [])
  | some f =>
      match readF f with
      | .error e => .error e
      | .ok content =>
          match writeF f (appSub content) with
          | .error e => .error e
          | .ok f2 => .ok (some f2, [.spinnerFixed])

/-- The function `main`: the three phases in sequence.  The result is the
final filesystem and the per-phase outcome lists; `Except.error` models an
uncaught exception aborting the run. -/
def main (fs : FS) : Except Unit (FS × (List Outcome × List Outcome × List Outcome)) :=
  let c := processComponents fs.components
  let d := processDark fs.darkMode
  match processApp fs.appCss with
  | .error e => .error e
  | .ok a =>
      .ok ({ components := c.1, darkMode := d.1, appCss := a.1 }, (c.2, d.2, a.2))

end FixColors

namespace FixColors

/-- The result of `matchEndF` does not depend on the fuel, as long as the fuel
exceeds the combined length of pattern and text. -/
theorem matchEndF_congr :
    ∀ (n f g : Nat) (ps : List RElem) (prev : Option Char) (s : List Char),
      ps.length + s.length ≤ n → ps.length + s.length < f →
      ps.length + s.length < g →
      matchEndF f ps prev s = matchEndF g ps prev s := by
  intro n
  induction n with
  | zero =>
      intro f g ps prev s hn hf hg
      have hps : ps = [] := by
        cases ps with
        | nil => rfl
        | cons p pt => simp at hn
      have hs : s = [] := by
        cases s with
        | nil => rfl
        | cons a t => simp [hps] at hn
      obtain ⟨f', rfl⟩ : ∃ f', f = f' + 1 := ⟨f - 1, by omega⟩
      obtain ⟨g', rfl⟩ : ∃ g', g = g' + 1 := ⟨g - 1, by omega⟩
      subst hps hs
      simp [matchEndF]
  | succ n ih =>
      intro f g ps prev s hn hf hg
      obtain ⟨f', rfl⟩ : ∃ f', f = f' + 1 := ⟨f - 1, by omega⟩
      obtain ⟨g', rfl⟩ : ∃ g', g = g' + 1 := ⟨g - 1, by omega⟩
      cases ps with
      | nil => simp [matchEndF]
      | cons p pt =>
        cases p with
        | lit c =>
            cases s with
            | nil => simp [matchEndF]
            | cons a t =>
                simp only [matchEndF]
                by_cases hac : a = c
                · simp only [hac, if_pos rfl]
                  exact ih f' g' pt (some c) t (by simp at hn ⊢; omega)
                    (by simp at hf ⊢; omega) (by simp at hg ⊢; omega)
                · simp [hac]
        | wb =>
            simp only [matchEndF]
            by_cases hb : pwOf prev != pwOf s.head?
            · simp only [hb, if_pos]
              exact ih f' g' pt prev s (by simp at hn ⊢; omega)
                (by simp at hf ⊢; omega) (by simp at hg ⊢; omega)
            · simp [hb]
        | wsStar =>
            cases s with
            | nil =>
                simp only [matchEndF]
                exact ih f' g' pt prev [] (by simp at hn ⊢; omega)
                  (by simp at hf ⊢; omega) (by simp at hg ⊢; omega)
            | cons a t =>
                simp only [matchEndF]
                by_cases hsp : isSpaceCh a
                · simp only [hsp, if_pos]
                  have hrec :
                      matchEndF f' (.wsStar :: pt) (some a) t =
                        matchEndF g' (.wsStar :: pt) (some a) t :=
                    ih f' g' (.wsStar :: pt) (some a) t (by simp at hn ⊢; omega)
                      (by simp at hf ⊢; omega) (by simp at hg ⊢; omega)
                  rw [hrec]
                  have hskip :
                      matchEndF f' pt prev (a :: t) =
                        matchEndF g' pt prev (a :: t) :=
                    ih f' g' pt prev (a :: t) (by simp at hn ⊢; omega)
                      (by simp at hf ⊢; omega) (by simp at hg ⊢; omega)
                  cases matchEndF g' (.wsStar :: pt) (some a) t with
                  | none => simpa using hskip
                  | some r => simp
                · simp only [hsp, if_neg, Bool.false_eq_true, not_false_iff]
                  exact ih f' g' pt prev (a :: t) (by simp at hn ⊢; omega)
                    (by simp at hf ⊢; omega) (by simp at hg ⊢; omega)
        | wsPlus =>
            cases s with
            | nil => simp [matchEndF]
            | cons a t =>
                simp only [matchEndF]
                by_cases hsp : isSpaceCh a
                · simp only [hsp, if_pos]
                  exact ih f' g' (.wsStar :: pt) (some a) t (by simp at hn ⊢; omega)
                    (by simp at hf ⊢; omega) (by simp at hg ⊢; omega)
                · simp [hsp]
        | nbPlus =>
            cases s with
            | nil => simp [matchEndF]
            | cons a t =>
                simp only [matchEndF]
                by_cases hbr : a = '\x7d'
                · simp [hbr]
                · simp only [hbr, if_neg, not_false_iff]
                  exact ih f' g' (.nbStar :: pt) (some a) t (by simp at hn ⊢; omega)
                    (by simp at hf ⊢; omega) (by simp at hg ⊢; omega)
        | nbStar =>
            cases s with
            | nil =>
                simp only [matchEndF]
                exact ih f' g' pt prev [] (by simp at hn ⊢; omega)
                  (by simp at hf ⊢; omega) (by simp at hg ⊢; omega)
            | cons a t =>
                simp only [matchEndF]
                by_cases hbr : a = '\x7d'
                · simp only [hbr, if_pos rfl]
                  exact ih f' g' pt prev ('\x7d' :: t) (by simp at hn ⊢; omega)
                    (by simp at hf ⊢; omega) (by simp at hg ⊢; omega)
                · simp only [hbr, if_neg, not_false_iff]
                  have hrec :
                      matchEndF f' (.nbStar :: pt) (some a) t =
                        matchEndF g' (.nbStar :: pt) (some a) t :=
                    ih f' g' (.nbStar :: pt) (some a) t (by simp at hn ⊢; omega)
                      (by simp at hf ⊢; omega) (by simp at hg ⊢; omega)
                  rw [hrec]
                  have hskip :
                      matchEndF f' pt prev (a :: t) =
                        matchEndF g' pt prev (a :: t) :=
                    ih f' g' pt prev (a :: t) (by simp at hn ⊢; omega)
                      (by simp at hf ⊢; omega) (by simp at hg ⊢; omega)
                  cases matchEndF g' (.nbStar :: pt) (some a) t with
                  | none => simpa using hskip
                  | some r => simp

/-- Any sufficient fuel computes `matchEnd`. -/
theorem matchEndF_eq_matchEnd (f : Nat) (ps : List RElem) (prev : Option Char)
    (s : List Char) (hf : ps.length + s.length < f) :
    matchEndF f ps prev s = matchEnd ps prev s :=
  matchEndF_congr (ps.length + s.length) f (ps.length + s.length + 1) ps prev s
    le_rfl hf (by omega)

/-- Unfold `matchEnd` at any sufficient fuel. -/
theorem matchEnd_eq_f (f : Nat) (ps : List RElem) (prev : Option Char)
    (s : List Char) (hf : ps.length + s.length < f) :
    matchEnd ps prev s = matchEndF f ps prev s :=
  (matchEndF_eq_matchEnd f ps prev s hf).symm

@[simp] theorem matchEnd_nil_pat (prev : Option Char) (s : List Char) :
    matchEnd [] prev s = some s := by
  rw [matchEnd, matchEndF]

@[simp] theorem matchEnd_lit_nil (c : Char) (ps : List RElem) (prev : Option Char) :
    matchEnd (.lit c :: ps) prev [] = none := by
  rw [matchEnd, matchEndF]

@[simp] theorem matchEnd_lit_cons (c : Char) (ps : List RElem) (prev : Option Char)
    (a : Char) (t : List Char) :
    matchEnd (.lit c :: ps) prev (a :: t) =
      if a = c then matchEnd ps (some a) t else none := by
  rw [matchEnd, matchEndF]
  by_cases hac : a = c
  · rw [if_pos hac, if_pos hac,
      matchEndF_eq_matchEnd ((RElem.lit c :: ps).length + (a :: t).length) ps
        (some a) t (by simp only [List.length_cons]; omega)]
  · rw [if_neg hac, if_neg hac]

@[simp] theorem matchEnd_wb (ps : List RElem) (prev : Option Char) (s : List Char) :
    matchEnd (.wb :: ps) prev s =
      if pwOf prev != pwOf s.head? then matchEnd ps prev s else none := by
  rw [matchEnd, matchEndF]
  by_cases hb : pwOf prev != pwOf s.head?
  · rw [if_pos hb, if_pos hb,
      matchEndF_eq_matchEnd ((RElem.wb :: ps).length + s.length) ps prev s
        (by simp only [List.length_cons]; omega)]
  · rw [if_neg hb, if_neg hb]

@[simp] theorem matchEnd_wsStar_nil (ps : List RElem) (prev : Option Char) :
    matchEnd (.wsStar :: ps) prev [] = matchEnd ps prev [] := by
  rw [matchEnd, matchEndF]
  rw [matchEndF_eq_matchEnd ((RElem.wsStar :: ps).length + ([] : List Char).length)
    ps prev [] (by simp only [List.length_cons, List.length_nil]; omega)]

@[simp] theorem matchEnd_wsStar_cons (ps : List RElem) (prev : Option Char)
    (a : Char) (t : List Char) :
    matchEnd (.wsStar :: ps) prev (a :: t) =
      if isSpaceCh a then
        match matchEnd (.wsStar :: ps) (some a) t with
        | some r => some r
        | none => matchEnd ps prev (a :: t)
      else matchEnd ps prev (a :: t) := by
  rw [matchEnd, matchEndF]
  by_cases hsp : isSpaceCh a
  · rw [if_pos hsp, if_pos hsp,
      matchEndF_eq_matchEnd ((RElem.wsStar :: ps).length + (a :: t).length)
        (.wsStar :: ps) (some a) t (by simp only [List.length_cons]; omega),
      matchEndF_eq_matchEnd ((RElem.wsStar :: ps).length + (a :: t).length)
        ps prev (a :: t) (by simp only [List.length_cons]; omega)]
  · rw [if_neg hsp, if_neg hsp,
      matchEndF_eq_matchEnd ((RElem.wsStar :: ps).length + (a :: t).length)
        ps prev (a :: t) (by simp only [List.length_cons]; omega)]

@[simp] theorem matchEnd_wsPlus_nil (ps : List RElem) (prev : Option Char) :
    matchEnd (.wsPlus :: ps) prev [] = none := by
  rw [matchEnd, matchEndF]

@[simp] theorem matchEnd_wsPlus_cons (ps : List RElem) (prev : Option Char)
    (a : Char) (t : List Char) :
    matchEnd (.wsPlus :: ps) prev (a :: t) =
      if isSpaceCh a then matchEnd (.wsStar :: ps) (some a) t else none := by
  rw [matchEnd, matchEndF]
  by_cases hsp : isSpaceCh a
  · rw [if_pos hsp, if_pos hsp,
      matchEndF_eq_matchEnd ((RElem.wsPlus :: ps).length + (a :: t).length)
        (.wsStar :: ps) (some a) t (by simp only [List.length_cons]; omega)]
  · rw [if_neg hsp, if_neg hsp]

@[simp] theorem matchEnd_nbPlus_nil (ps : List RElem) (prev : Option Char) :
    matchEnd (.nbPlus :: ps) prev [] = none := by
  rw [matchEnd, matchEndF]

@[simp] theorem matchEnd_nbPlus_cons (ps : List RElem) (prev : Option Char)
    (a : Char) (t : List Char) :
    matchEnd (.nbPlus :: ps) prev (a :: t) =
      if a = '\x7d' then none else matchEnd (.nbStar :: ps) (some a) t := by
  rw [matchEnd, matchEndF]
  by_cases hbr : a = '\x7d'
  · rw [if_pos hbr, if_pos hbr]
  · rw [if_neg hbr, if_neg hbr,
      matchEndF_eq_matchEnd ((RElem.nbPlus :: ps).length + (a :: t).length)
        (.nbStar :: ps) (some a) t (by simp only [List.length_cons]; omega)]

@[simp] theorem matchEnd_nbStar_nil (ps : List RElem) (prev : Option Char) :
    matchEnd (.nbStar :: ps) prev [] = matchEnd ps prev [] := by
  rw [matchEnd, matchEndF]
  rw [matchEndF_eq_matchEnd ((RElem.nbStar :: ps).length + ([] : List Char).length)
    ps prev [] (by simp only [List.length_cons, List.length_nil]; omega)]

@[simp] theorem matchEnd_nbStar_cons (ps : List RElem) (prev : Option Char)
    (a : Char) (t : List Char) :
    matchEnd (.nbStar :: ps) prev (a :: t) =
      if a = '\x7d' then matchEnd ps prev (a :: t)
      else
        match matchEnd (.nbStar :: ps) (some a) t with
        | some r => some r
        | none => matchEnd ps prev (a :: t) := by
  rw [matchEnd, matchEndF]
  by_cases hbr : a = '\x7d'
  · rw [if_pos hbr, if_pos hbr,
      matchEndF_eq_matchEnd ((RElem.nbStar :: ps).length + (a :: t).length)
        ps prev (a :: t) (by simp only [List.length_cons]; omega)]
  · rw [if_neg hbr, if_neg hbr,
      matchEndF_eq_matchEnd ((RElem.nbStar :: ps).length + (a :: t).length)
        (.nbStar :: ps) (some a) t (by simp only [List.length_cons]; omega),
      matchEndF_eq_matchEnd ((RElem.nbStar :: ps).length + (a :: t).length)
        ps prev (a :: t) (by simp only [List.length_cons]; omega)]

/-- The result of `subF` does not depend on fuel exceeding the text length. -/
theorem subF_congr :
    ∀ (n f g : Nat) (p : List RElem) (r : List Char) (s : List Char),
      s.length ≤ n → s.length < f → s.length < g → subF f p r s = subF g p r s := by
  intro n
  induction n with
  | zero =>
      intro f g p r s hn hf hg
      have hs : s = [] := by
        cases s with
        | nil => rfl
        | cons a t => simp at hn
      obtain ⟨f', rfl⟩ : ∃ f', f = f' + 1 := ⟨f - 1, by omega⟩
      obtain ⟨g', rfl⟩ : ∃ g', g = g' + 1 := ⟨g - 1, by omega⟩
      subst hs
      simp [subF]
  | succ n ih =>
      intro f g p r s hn hf hg
      obtain ⟨f', rfl⟩ : ∃ f', f = f' + 1 := ⟨f - 1, by omega⟩
      obtain ⟨g', rfl⟩ : ∃ g', g = g' + 1 := ⟨g - 1, by omega⟩
      cases s with
      | nil => simp [subF]
      | cons a t =>
          simp only [subF]
          cases hm : matchEnd p none (a :: t) with
          | none =>
              dsimp only
              rw [ih f' g' p r t (by simp at hn; omega) (by simp at hf; omega)
                (by simp at hg; omega)]
          | some rem =>
              dsimp only
              by_cases hl : rem.length ≤ t.length
              · rw [if_pos hl, if_pos hl,
                  ih f' g' p r rem (by simp at hn; omega) (by simp at hf; omega)
                    (by simp at hg; omega)]
              · rw [if_neg hl, if_neg hl,
                  ih f' g' p r t (by simp at hn; omega) (by simp at hf; omega)
                    (by simp at hg; omega)]

/-- Any sufficient fuel computes `subAll`. -/
theorem subF_eq_subAll (f : Nat) (p : List RElem) (r : List Char) (s : List Char)
    (hf : s.length < f) : subF f p r s = subAll p r s :=
  subF_congr s.length f (s.length + 1) p r s le_rfl hf (by omega)

@[simp] theorem subAll_nil (p : List RElem) (r : List Char) : subAll p r [] = [] := by
  rw [subAll, subF]

theorem subAll_cons (p : List RElem) (r : List Char) (a : Char) (t : List Char) :
    subAll p r (a :: t) =
      match matchEnd p none (a :: t) with
      | some rem =>
          if rem.length ≤ t.length then r ++ subAll p r rem
          else a :: subAll p r t
      | none => a :: subAll p r t := by
  rw [subAll, subF]
  cases hm : matchEnd p none (a :: t) with
  | none =>
      dsimp only
      rw [subF_eq_subAll ((a :: t).length) p r t (by simp)]
  | some rem =>
      dsimp only
      by_cases hl : rem.length ≤ t.length
      · rw [if_pos hl, if_pos hl,
          subF_eq_subAll ((a :: t).length) p r rem (by simp; omega)]
      · rw [if_neg hl, if_neg hl, subF_eq_subAll ((a :: t).length) p r t (by simp)]

/-- The result of `cntF` does not depend on fuel exceeding the text length. -/
theorem cntF_congr :
    ∀ (n f g : Nat) (p : List RElem) (s : List Char),
      s.length ≤ n → s.length < f → s.length < g → cntF f p s = cntF g p s := by
  intro n
  induction n with
  | zero =>
      intro f g p s hn hf hg
      have hs : s = [] := by
        cases s with
        | nil => rfl
        | cons a t => simp at hn
      obtain ⟨f', rfl⟩ : ∃ f', f = f' + 1 := ⟨f - 1, by omega⟩
      obtain ⟨g', rfl⟩ : ∃ g', g = g' + 1 := ⟨g - 1, by omega⟩
      subst hs
      simp [cntF]
  | succ n ih =>
      intro f g p s hn hf hg
      obtain ⟨f', rfl⟩ : ∃ f', f = f' + 1 := ⟨f - 1, by omega⟩
      obtain ⟨g', rfl⟩ : ∃ g', g = g' + 1 := ⟨g - 1, by omega⟩
      cases s with
      | nil => simp [cntF]
      | cons a t =>
          simp only [cntF]
          cases hm : matchEnd p none (a :: t) with
          | none =>
              dsimp only
              rw [ih f' g' p t (by simp at hn; omega) (by simp at hf; omega)
                (by simp at hg; omega)]
          | some rem =>
              dsimp only
              by_cases hl : rem.length ≤ t.length
              · rw [if_pos hl, if_pos hl,
                  ih f' g' p rem (by simp at hn; omega) (by simp at hf; omega)
                    (by simp at hg; omega)]
              · rw [if_neg hl, if_neg hl,
                  ih f' g' p t (by simp at hn; omega) (by simp at hf; omega)
                    (by simp at hg; omega)]

/-- Any sufficient fuel computes `cnt`. -/
theorem cntF_eq_cnt (f : Nat) (p : List RElem) (s : List Char) (hf : s.length < f) :
    cntF f p s = cnt p s :=
  cntF_congr s.length f (s.length + 1) p s le_rfl hf (by omega)

@[simp] theorem cnt_nil (p : List RElem) : cnt p [] = 0 := by
  rw [cnt, cntF]

theorem cnt_cons (p : List RElem) (a : Char) (t : List Char) :
    cnt p (a :: t) =
      match matchEnd p none (a :: t) with
      | some rem => if rem.length ≤ t.length then 1 + cnt p rem else cnt p t
      | none => cnt p t := by
  rw [cnt, cntF]
  cases hm : matchEnd p none (a :: t) with
  | none =>
      dsimp only
      rw [cntF_eq_cnt ((a :: t).length) p t (by simp)]
  | some rem =>
      dsimp only
      by_cases hl : rem.length ≤ t.length
      · rw [if_pos hl, if_pos hl, cntF_eq_cnt ((a :: t).length) p rem (by simp; omega)]
      · rw [if_neg hl, if_neg hl, cntF_eq_cnt ((a :: t).length) p t (by simp)]

/-- A successful anchored match consumes a prefix: the remainder is no longer
than the text. -/
theorem matchEnd_length :
    ∀ (n : Nat) (ps : List RElem) (prev : Option Char) (s r : List Char),
      ps.length + s.length ≤ n → matchEnd ps prev s = some r →
      r.length ≤ s.length := by
  intro n
  induction n with
  | zero =>
      intro ps prev s r hn hm
      have hps : ps = [] := by
        cases ps with
        | nil => rfl
        | cons p pt => simp at hn
      subst hps
      simp at hm
      simp [hm]
  | succ n ih =>
      intro ps prev s r hn hm
      cases ps with
      | nil =>
          simp at hm
          simp [hm]
      | cons p pt =>
        cases p with
        | lit c =>
            cases s with
            | nil => simp at hm
            | cons a t =>
                rw [matchEnd_lit_cons] at hm
                by_cases hac : a = c
                · rw [if_pos hac] at hm
                  have := ih pt (some a) t r (by simp at hn ⊢; omega) hm
                  simp
                  omega
                · rw [if_neg hac] at hm
                  exact absurd hm (by simp)
        | wb =>
            rw [matchEnd_wb] at hm
            by_cases hb : pwOf prev != pwOf s.head?
            · rw [if_pos hb] at hm
              exact ih pt prev s r (by simp at hn ⊢; omega) hm
            · rw [if_neg hb] at hm
              exact absurd hm (by simp)
        | wsStar =>
            cases s with
            | nil =>
                rw [matchEnd_wsStar_nil] at hm
                exact ih pt prev [] r (by simp at hn ⊢; omega) hm
            | cons a t =>
                rw [matchEnd_wsStar_cons] at hm
                by_cases hsp : isSpaceCh a
                · rw [if_pos hsp] at hm
                  cases hc : matchEnd (RElem.wsStar :: pt) (some a) t with
                  | some r2 =>
                      rw [hc] at hm
                      simp at hm
                      subst hm
                      have := ih (RElem.wsStar :: pt) (some a) t r2
                        (by simp at hn ⊢; omega) hc
                      simp
                      omega
                  | none =>
                      rw [hc] at hm
                      simp at hm
                      exact ih pt prev (a :: t) r (by simp at hn ⊢; omega) hm
                · rw [if_neg hsp] at hm
                  exact ih pt prev (a :: t) r (by simp at hn ⊢; omega) hm
        | wsPlus =>
            cases s with
            | nil => simp at hm
            | cons a t =>
                rw [matchEnd_wsPlus_cons] at hm
                by_cases hsp : isSpaceCh a
                · rw [if_pos hsp] at hm
                  have := ih (RElem.wsStar :: pt) (some a) t r
                    (by simp at hn ⊢; omega) hm
                  simp
                  omega
                · rw [if_neg hsp] at hm
                  exact absurd hm (by simp)
        | nbPlus =>
            cases s with
            | nil => simp at hm
            | cons a t =>
                rw [matchEnd_nbPlus_cons] at hm
                by_cases hbr : a = '\x7d'
                · rw [if_pos hbr] at hm
                  exact absurd hm (by simp)
                · rw [if_neg hbr] at hm
                  have := ih (RElem.nbStar :: pt) (some a) t r
                    (by simp at hn ⊢; omega) hm
                  simp
                  omega
        | nbStar =>
            cases s with
            | nil =>
                rw [matchEnd_nbStar_nil] at hm
                exact ih pt prev [] r (by simp at hn ⊢; omega) hm
            | cons a t =>
                rw [matchEnd_nbStar_cons] at hm
                by_cases hbr : a = '\x7d'
                · rw [if_pos hbr] at hm
                  exact ih pt prev (a :: t) r (by simp at hn ⊢; omega) hm
                · rw [if_neg hbr] at hm
                  cases hc : matchEnd (RElem.nbStar :: pt) (some a) t with
                  | some r2 =>
                      rw [hc] at hm
                      simp at hm
                      subst hm
                      have := ih (RElem.nbStar :: pt) (some a) t r2
                        (by simp at hn ⊢; omega) hc
                      simp
                      omega
                  | none =>
                      rw [hc] at hm
                      simp at hm
                      exact ih pt prev (a :: t) r (by simp at hn ⊢; omega) hm

/-- A successful anchored match leaves a suffix of the text. -/
theorem matchEnd_suffix :
    ∀ (n : Nat) (ps : List RElem) (prev : Option Char) (s r : List Char),
      ps.length + s.length ≤ n → matchEnd ps prev s = some r → r <:+ s := by
  intro n
  induction n with
  | zero =>
      intro ps prev s r hn hm
      have hps : ps = [] := by
        cases ps with
        | nil => rfl
        | cons p pt => simp at hn
      subst hps
      simp at hm
      subst hm
      exact List.suffix_rfl
  | succ n ih =>
      intro ps prev s r hn hm
      cases ps with
      | nil =>
          simp at hm
          subst hm
          exact List.suffix_rfl
      | cons p pt =>
        cases p with
        | lit c =>
            cases s with
            | nil => simp at hm
            | cons a t =>
                rw [matchEnd_lit_cons] at hm
                by_cases hac : a = c
                · rw [if_pos hac] at hm
                  exact (ih pt (some a) t r (by simp at hn ⊢; omega) hm).trans
                    (List.suffix_cons a t)
                · rw [if_neg hac] at hm
                  exact absurd hm (by simp)
        | wb =>
            rw [matchEnd_wb] at hm
            by_cases hb : pwOf prev != pwOf s.head?
            · rw [if_pos hb] at hm
              exact ih pt prev s r (by simp at hn ⊢; omega) hm
            · rw [if_neg hb] at hm
              exact absurd hm (by simp)
        | wsStar =>
            cases s with
            | nil =>
                rw [matchEnd_wsStar_nil] at hm
                exact ih pt prev [] r (by simp at hn ⊢; omega) hm
            | cons a t =>
                rw [matchEnd_wsStar_cons] at hm
                by_cases hsp : isSpaceCh a
                · rw [if_pos hsp] at hm
                  cases hc : matchEnd (RElem.wsStar :: pt) (some a) t with
                  | some r2 =>
                      rw [hc] at hm
                      simp at hm
                      subst hm
                      exact (ih (RElem.wsStar :: pt) (some a) t r2
                        (by simp at hn ⊢; omega) hc).trans (List.suffix_cons a t)
                  | none =>
                      rw [hc] at hm
                      simp at hm
                      exact ih pt prev (a :: t) r (by simp at hn ⊢; omega) hm
                · rw [if_neg hsp] at hm
                  exact ih pt prev (a :: t) r (by simp at hn ⊢; omega) hm
        | wsPlus =>
            cases s with
            | nil => simp at hm
            | cons a t =>
                rw [matchEnd_wsPlus_cons] at hm
                by_cases hsp : isSpaceCh a
                · rw [if_pos hsp] at hm
                  exact (ih (RElem.wsStar :: pt) (some a) t r
                    (by simp at hn ⊢; omega) hm).trans (List.suffix_cons a t)
                · rw [if_neg hsp] at hm
                  exact absurd hm (by simp)
        | nbPlus =>
            cases s with
            | nil => simp at hm
            | cons a t =>
                rw [matchEnd_nbPlus_cons] at hm
                by_cases hbr : a = '\x7d'
                · rw [if_pos hbr] at hm
                  exact absurd hm (by simp)
                · rw [if_neg hbr] at hm
                  exact (ih (RElem.nbStar :: pt) (some a) t r
                    (by simp at hn ⊢; omega) hm).trans (List.suffix_cons a t)
        | nbStar =>
            cases s with
            | nil =>
                rw [matchEnd_nbStar_nil] at hm
                exact ih pt prev [] r (by simp at hn ⊢; omega) hm
            | cons a t =>
                rw [matchEnd_nbStar_cons] at hm
                by_cases hbr : a = '\x7d'
                · rw [if_pos hbr] at hm
                  exact ih pt prev (a :: t) r (by simp at hn ⊢; omega) hm
                · rw [if_neg hbr] at hm
                  cases hc : matchEnd (RElem.nbStar :: pt) (some a) t with
                  | some r2 =>
                      rw [hc] at hm
                      simp at hm
                      subst hm
                      exact (ih (RElem.nbStar :: pt) (some a) t r2
                        (by simp at hn ⊢; omega) hc).trans (List.suffix_cons a t)
                  | none =>
                      rw [hc] at hm
                      simp at hm
                      exact ih pt prev (a :: t) r (by simp at hn ⊢; omega) hm

/-- The result of `viaF` does not depend on sufficient fuel. -/
theorem viaF_congr :
    ∀ (n f g : Nat) (ps : List RElem) (pw : Bool) (s : List Char),
      ps.length + s.length ≤ n → ps.length + s.length < f →
      ps.length + s.length < g → viaF f ps pw s = viaF g ps pw s := by
  intro n
  induction n with
  | zero =>
      intro f g ps pw s hn hf hg
      have hps : ps = [] := by
        cases ps with
        | nil => rfl
        | cons p pt => simp at hn
      have hs : s = [] := by
        cases s with
        | nil => rfl
        | cons a t => simp [hps] at hn
      obtain ⟨f', rfl⟩ : ∃ f', f = f' + 1 := ⟨f - 1, by omega⟩
      obtain ⟨g', rfl⟩ : ∃ g', g = g' + 1 := ⟨g - 1, by omega⟩
      subst hps hs
      simp [viaF]
  | succ n ih =>
      intro f g ps pw s hn hf hg
      obtain ⟨f', rfl⟩ : ∃ f', f = f' + 1 := ⟨f - 1, by omega⟩
      obtain ⟨g', rfl⟩ : ∃ g', g = g' + 1 := ⟨g - 1, by omega⟩
      cases ps with
      | nil => simp [viaF]
      | cons p pt =>
        cases s with
        | nil =>
            cases p <;> simp [viaF]
        | cons a t =>
          cases p with
          | lit c =>
              simp only [viaF]
              rw [ih f' g' pt (isWordCh a) t (by simp at hn ⊢; omega)
                (by simp at hf ⊢; omega) (by simp at hg ⊢; omega)]
          | wb =>
              simp only [viaF]
              rw [ih f' g' pt pw (a :: t) (by simp at hn ⊢; omega)
                (by simp at hf ⊢; omega) (by simp at hg ⊢; omega)]
          | wsStar =>
              simp only [viaF]
              rw [ih f' g' (.wsStar :: pt) false t (by simp at hn ⊢; omega)
                (by simp at hf ⊢; omega) (by simp at hg ⊢; omega),
                ih f' g' pt pw (a :: t) (by simp at hn ⊢; omega)
                  (by simp at hf ⊢; omega) (by simp at hg ⊢; omega)]
          | wsPlus =>
              simp only [viaF]
              rw [ih f' g' (.wsStar :: pt) false t (by simp at hn ⊢; omega)
                (by simp at hf ⊢; omega) (by simp at hg ⊢; omega)]
          | nbPlus =>
              simp only [viaF]
              rw [ih f' g' (.nbStar :: pt) (isWordCh a) t (by simp at hn ⊢; omega)
                (by simp at hf ⊢; omega) (by simp at hg ⊢; omega)]
          | nbStar =>
              simp only [viaF]
              rw [ih f' g' (.nbStar :: pt) (isWordCh a) t (by simp at hn ⊢; omega)
                (by simp at hf ⊢; omega) (by simp at hg ⊢; omega),
                ih f' g' pt pw (a :: t) (by simp at hn ⊢; omega)
                  (by simp at hf ⊢; omega) (by simp at hg ⊢; omega)]

/-- Any sufficient fuel computes `viable`. -/
theorem viaF_eq_viable (f : Nat) (ps : List RElem) (pw : Bool) (s : List Char)
    (hf : ps.length + s.length < f) : viaF f ps pw s = viable ps pw s :=
  viaF_congr (ps.length + s.length) f (ps.length + s.length + 1) ps pw s
    le_rfl hf (by omega)

@[simp] theorem viable_nil_pat (pw : Bool) (s : List Char) :
    viable [] pw s = true := by
  rw [viable, viaF]

@[simp] theorem viable_nil_text (p : RElem) (ps : List RElem) (pw : Bool) :
    viable (p :: ps) pw [] = true := by
  cases p <;> rfl

@[simp] theorem viable_lit (c : Char) (ps : List RElem) (pw : Bool) (a : Char)
    (t : List Char) :
    viable (.lit c :: ps) pw (a :: t) = (a = c && viable ps (isWordCh a) t) := by
  rw [viable, viaF,
    viaF_eq_viable ((RElem.lit c :: ps).length + (a :: t).length) ps (isWordCh a) t
      (by simp only [List.length_cons]; omega)]

@[simp] theorem viable_wb (ps : List RElem) (pw : Bool) (a : Char) (t : List Char) :
    viable (.wb :: ps) pw (a :: t) =
      ((isWordCh a != pw) && viable ps pw (a :: t)) := by
  rw [viable, viaF,
    viaF_eq_viable ((RElem.wb :: ps).length + (a :: t).length) ps pw (a :: t)
      (by simp only [List.length_cons]; omega)]

@[simp] theorem viable_wsStar (ps : List RElem) (pw : Bool) (a : Char)
    (t : List Char) :
    viable (.wsStar :: ps) pw (a :: t) =
      ((isSpaceCh a && viable (.wsStar :: ps) false t) || viable ps pw (a :: t)) := by
  rw [viable, viaF,
    viaF_eq_viable ((RElem.wsStar :: ps).length + (a :: t).length) (.wsStar :: ps)
      false t (by simp only [List.length_cons]; omega),
    viaF_eq_viable ((RElem.wsStar :: ps).length + (a :: t).length) ps pw (a :: t)
      (by simp only [List.length_cons]; omega)]

@[simp] theorem viable_wsPlus (ps : List RElem) (pw : Bool) (a : Char)
    (t : List Char) :
    viable (.wsPlus :: ps) pw (a :: t) =
      (isSpaceCh a && viable (.wsStar :: ps) false t) := by
  rw [viable, viaF,
    viaF_eq_viable ((RElem.wsPlus :: ps).length + (a :: t).length) (.wsStar :: ps)
      false t (by simp only [List.length_cons]; omega)]

@[simp] theorem viable_nbPlus (ps : List RElem) (pw : Bool) (a : Char)
    (t : List Char) :
    viable (.nbPlus :: ps) pw (a :: t) =
      ((a != '\x7d') && viable (.nbStar :: ps) (isWordCh a) t) := by
  rw [viable, viaF,
    viaF_eq_viable ((RElem.nbPlus :: ps).length + (a :: t).length) (.nbStar :: ps)
      (isWordCh a) t (by simp only [List.length_cons]; omega)]

@[simp] theorem viable_nbStar (ps : List RElem) (pw : Bool) (a : Char)
    (t : List Char) :
    viable (.nbStar :: ps) pw (a :: t) =
      (((a != '\x7d') && viable (.nbStar :: ps) (isWordCh a) t) ||
        viable ps pw (a :: t)) := by
  rw [viable, viaF,
    viaF_eq_viable ((RElem.nbStar :: ps).length + (a :: t).length) (.nbStar :: ps)
      (isWordCh a) t (by simp only [List.length_cons]; omega),
    viaF_eq_viable ((RElem.nbStar :: ps).length + (a :: t).length) ps pw (a :: t)
      (by simp only [List.length_cons]; omega)]

/-- Whitespace characters are not word characters. -/
theorem not_word_of_space (a : Char) (h : isSpaceCh a = true) :
    isWordCh a = false := by
  simp only [isSpaceCh, Bool.or_eq_true, decide_eq_true_eq] at h
  rcases h with ((((h | h) | h) | h) | h) | h <;> subst h <;> decide

/-- The key property of the viability check: if the attempt dies inside `u`,
then the pattern matches no extension `u ++ z`. -/
theorem viable_false_matchEnd :
    ∀ (n : Nat) (ps : List RElem) (pw : Bool) (u : List Char) (prev : Option Char)
      (z : List Char), ps.length + u.length ≤ n → pwOf prev = pw →
      viable ps pw u = false → matchEnd ps prev (u ++ z) = none := by
  intro n
  induction n with
  | zero =>
      intro ps pw u prev z hn hpw hv
      have hps : ps = [] := by
        cases ps with
        | nil => rfl
        | cons p pt => simp at hn
      subst hps
      simp at hv
  | succ n ih =>
      intro ps pw u prev z hn hpw hv
      cases ps with
      | nil => simp at hv
      | cons p pt =>
        cases u with
        | nil => simp at hv
        | cons a u2 =>
          cases p with
          | lit c =>
              simp only [List.cons_append, matchEnd_lit_cons]
              by_cases hac : a = c
              · subst hac
                rw [if_pos rfl]
                rw [viable_lit] at hv
                simp at hv
                exact ih pt (isWordCh a) u2 (some a) z (by simp at hn ⊢; omega) rfl hv
              · rw [if_neg hac]
          | wb =>
              simp only [List.cons_append, matchEnd_wb, List.head?_cons]
              rw [hpw]
              rw [viable_wb] at hv
              by_cases hb : pw != pwOf (some a)
              · rw [if_pos hb]
                have hb2 : (isWordCh a != pw) = true := by
                  cases pw <;> cases hw : isWordCh a <;> simp_all [pwOf]
                rw [hb2, Bool.true_and] at hv
                have hrec : matchEnd pt prev ((a :: u2) ++ z) = none :=
                  ih pt pw (a :: u2) prev z (by simp at hn ⊢; omega) hpw hv
                simpa using hrec
              · rw [if_neg hb]
          | wsStar =>
              simp only [List.cons_append, matchEnd_wsStar_cons]
              rw [viable_wsStar] at hv
              simp only [Bool.or_eq_false_iff, Bool.and_eq_false_iff] at hv
              obtain ⟨hv1, hv2⟩ := hv
              have hskip : matchEnd pt prev ((a :: u2) ++ z) = none :=
                ih pt pw (a :: u2) prev z (by simp at hn ⊢; omega) hpw hv2
              by_cases hsp : isSpaceCh a
              · rw [if_pos hsp]
                have hv1b : viable (.wsStar :: pt) false u2 = false := by
                  rcases hv1 with h | h
                  · rw [hsp] at h; simp at h
                  · exact h
                have hcons : matchEnd (RElem.wsStar :: pt) (some a) (u2 ++ z) = none :=
                  ih (.wsStar :: pt) false u2 (some a) z (by simp at hn ⊢; omega)
                    (by simp [pwOf, not_word_of_space a hsp]) hv1b
                rw [hcons]
                simpa using hskip
              · rw [if_neg hsp]
                simpa using hskip
          | wsPlus =>
              simp only [List.cons_append, matchEnd_wsPlus_cons]
              rw [viable_wsPlus] at hv
              by_cases hsp : isSpaceCh a
              · rw [if_pos hsp]
                rw [hsp, Bool.true_and] at hv
                exact ih (.wsStar :: pt) false u2 (some a) z (by simp at hn ⊢; omega)
                  (by simp [pwOf, not_word_of_space a hsp]) hv
              · rw [if_neg hsp]
          | nbPlus =>
              simp only [List.cons_append, matchEnd_nbPlus_cons]
              rw [viable_nbPlus] at hv
              by_cases hbr : a = '\x7d'
              · rw [if_pos hbr]
              · rw [if_neg hbr]
                have hne : (a != '\x7d') = true := by simp [hbr]
                rw [hne, Bool.true_and] at hv
                exact ih (.nbStar :: pt) (isWordCh a) u2 (some a) z
                  (by simp at hn ⊢; omega) rfl hv
          | nbStar =>
              simp only [List.cons_append, matchEnd_nbStar_cons]
              rw [viable_nbStar] at hv
              simp only [Bool.or_eq_false_iff, Bool.and_eq_false_iff] at hv
              obtain ⟨hv1, hv2⟩ := hv
              have hskip : matchEnd pt prev ((a :: u2) ++ z) = none :=
                ih pt pw (a :: u2) prev z (by simp at hn ⊢; omega) hpw hv2
              by_cases hbr : a = '\x7d'
              · rw [if_pos hbr]
                simpa using hskip
              · rw [if_neg hbr]
                have hv1b : viable (.nbStar :: pt) (isWordCh a) u2 = false := by
                  rcases hv1 with h | h
                  · simp [hbr] at h
                  · exact h
                have hcons : matchEnd (RElem.nbStar :: pt) (some a) (u2 ++ z) = none :=
                  ih (.nbStar :: pt) (isWordCh a) u2 (some a) z
                    (by simp at hn ⊢; omega) rfl hv1b
                rw [hcons]
                simpa using hskip

/-- Every pattern is its own initial state. -/
theorem statesFrom_self (p : List RElem) (β : Bool) : (p, β) ∈ statesFrom p β := by
  cases p with
  | nil => simp [statesFrom]
  | cons e t => cases e <;> simp [statesFrom]

/-- The reachable state set is closed under matcher steps. -/
theorem statesFrom_closed :
    ∀ (p : List RElem) (β : Bool) (st st2 : List RElem × Bool),
      st ∈ statesFrom p β → st2 ∈ succStates st → st2 ∈ statesFrom p β := by
  intro p
  induction p with
  | nil =>
      intro β st st2 hst hst2
      simp [statesFrom] at hst
      subst hst
      simp [succStates] at hst2
  | cons e t ih =>
      intro β st st2 hst hst2
      cases e with
      | lit d =>
          simp only [statesFrom, List.mem_cons] at hst ⊢
          rcases hst with h | h
          · subst h
            simp [succStates] at hst2
            subst hst2
            exact Or.inr (statesFrom_self t (isWordCh d))
          · exact Or.inr (ih (isWordCh d) st st2 h hst2)
      | wb =>
          simp only [statesFrom, List.mem_cons] at hst ⊢
          rcases hst with h | h
          · subst h
            simp [succStates] at hst2
            subst hst2
            exact Or.inr (statesFrom_self t β)
          · exact Or.inr (ih β st st2 h hst2)
      | wsStar =>
          simp only [statesFrom, List.mem_cons, List.mem_append] at hst ⊢
          rcases hst with h | h | h | h
          · subst h
            simp [succStates] at hst2
            rcases hst2 with h2 | h2
            · subst h2; exact Or.inr (Or.inl rfl)
            · subst h2; exact Or.inr (Or.inr (Or.inl (statesFrom_self t β)))
          · subst h
            simp [succStates] at hst2
            rcases hst2 with h2 | h2
            · subst h2; exact Or.inr (Or.inl rfl)
            · subst h2; exact Or.inr (Or.inr (Or.inr (statesFrom_self t false)))
          · exact Or.inr (Or.inr (Or.inl (ih β st st2 h hst2)))
          · exact Or.inr (Or.inr (Or.inr (ih false st st2 h hst2)))
      | wsPlus =>
          simp only [statesFrom, List.mem_cons] at hst ⊢
          rcases hst with h | h | h
          · subst h
            simp [succStates] at hst2
            subst hst2
            exact Or.inr (Or.inl rfl)
          · subst h
            simp [succStates] at hst2
            rcases hst2 with h2 | h2
            · subst h2; exact Or.inr (Or.inl rfl)
            · subst h2; exact Or.inr (Or.inr (statesFrom_self t false))
          · exact Or.inr (Or.inr (ih false st st2 h hst2))
      | nbPlus =>
          simp only [statesFrom, List.mem_cons, List.mem_append] at hst ⊢
          rcases hst with h | h | h | h | h
          · subst h
            simp [succStates] at hst2
            rcases hst2 with h2 | h2
            · subst h2; exact Or.inr (Or.inl rfl)
            · subst h2; exact Or.inr (Or.inr (Or.inl rfl))
          · subst h
            simp [succStates] at hst2
            rcases hst2 with h2 | h2 | h2
            · subst h2; exact Or.inr (Or.inl rfl)
            · subst h2; exact Or.inr (Or.inr (Or.inl rfl))
            · subst h2; exact Or.inr (Or.inr (Or.inr (Or.inl (statesFrom_self t true))))
          · subst h
            simp [succStates] at hst2
            rcases hst2 with h2 | h2 | h2
            · subst h2; exact Or.inr (Or.inl rfl)
            · subst h2; exact Or.inr (Or.inr (Or.inl rfl))
            · subst h2
              exact Or.inr (Or.inr (Or.inr (Or.inr (statesFrom_self t false))))
          · exact Or.inr (Or.inr (Or.inr (Or.inl (ih true st st2 h hst2))))
          · exact Or.inr (Or.inr (Or.inr (Or.inr (ih false st st2 h hst2))))
      | nbStar =>
          simp only [statesFrom, List.mem_cons, List.mem_append] at hst ⊢
          rcases hst with h | h | h | h | h | h
          · subst h
            simp [succStates] at hst2
            rcases hst2 with h2 | h2 | h2
            · subst h2; exact Or.inr (Or.inl rfl)
            · subst h2; exact Or.inr (Or.inr (Or.inl rfl))
            · subst h2
              exact Or.inr (Or.inr (Or.inr (Or.inr (Or.inr (statesFrom_self t β)))))
          · subst h
            simp [succStates] at hst2
            rcases hst2 with h2 | h2 | h2
            · subst h2; exact Or.inr (Or.inl rfl)
            · subst h2; exact Or.inr (Or.inr (Or.inl rfl))
            · subst h2
              exact Or.inr (Or.inr (Or.inr (Or.inl (statesFrom_self t true))))
          · subst h
            simp [succStates] at hst2
            rcases hst2 with h2 | h2 | h2
            · subst h2; exact Or.inr (Or.inl rfl)
            · subst h2; exact Or.inr (Or.inr (Or.inl rfl))
            · subst h2
              exact Or.inr (Or.inr (Or.inr (Or.inr (Or.inl (statesFrom_self t false)))))
          · exact Or.inr (Or.inr (Or.inr (Or.inl (ih true st st2 h hst2))))
          · exact Or.inr (Or.inr (Or.inr (Or.inr (Or.inl (ih false st st2 h hst2)))))
          · exact Or.inr (Or.inr (Or.inr (Or.inr (Or.inr (ih β st st2 h hst2)))))

/-- Canonical-argument wrapper around `viable_false_matchEnd`. -/
theorem viable_false_none (ps : List RElem) (pw : Bool) (u z : List Char)
    (prev : Option Char) (hpw : pwOf prev = pw) (hv : viable ps pw u = false) :
    matchEnd ps prev (u ++ z) = none :=
  viable_false_matchEnd (ps.length + u.length) ps pw u prev z le_rfl hpw hv

/-- Simulation lemma: a failed match attempt of a state of `p` still fails on
the output of the substitution by `q`, provided no state of `p` can survive
the replacement string `r`. -/
theorem matchEnd_none_subAll :
    ∀ (n : Nat) (p q : List RElem) (r : List Char),
      (∀ st ∈ statesFrom p false, st.1 = [] ∨ viable st.1 st.2 r = false) →
      ∀ (ps : List RElem) (pw : Bool) (prev : Option Char) (s : List Char),
        2 * s.length + ps.length ≤ n → (ps, pw) ∈ statesFrom p false →
        pwOf prev = pw → matchEnd ps prev s = none →
        matchEnd ps prev (subAll q r s) = none := by
  intro n
  induction n with
  | zero =>
      intro p q r hsafe ps pw prev s hn hmem hpw hm
      have hps : ps = [] := by
        cases ps with
        | nil => rfl
        | cons e pt => simp at hn
      have hs : s = [] := by
        cases s with
        | nil => rfl
        | cons a t => simp at hn
      subst hps hs
      simp at hm
  | succ n ih =>
      intro p q r hsafe ps pw prev s hn hmem hpw hm
      cases s with
      | nil => simpa using hm
      | cons a t =>
        have hsplit : subAll q r (a :: t) = a :: subAll q r t ∨
            ∃ rem, subAll q r (a :: t) = r ++ subAll q r rem := by
          rw [subAll_cons]
          cases hq : matchEnd q none (a :: t) with
          | none => exact Or.inl rfl
          | some rem =>
              dsimp only
              by_cases hl : rem.length ≤ t.length
              · rw [if_pos hl]
                exact Or.inr ⟨rem, rfl⟩
              · rw [if_neg hl]
                exact Or.inl rfl
        rcases hsplit with hout | ⟨rem, hout⟩
        · rw [hout]
          cases ps with
          | nil =>
              rw [matchEnd_nil_pat] at hm
              exact absurd hm (by simp)
          | cons e pt =>
            cases e with
            | lit c =>
                rw [matchEnd_lit_cons] at hm ⊢
                by_cases hac : a = c
                · rw [if_pos hac] at hm ⊢
                  exact ih p q r hsafe pt (isWordCh c) (some a) t
                    (by simp at hn ⊢; omega)
                    (statesFrom_closed p false (RElem.lit c :: pt, pw)
                      (pt, isWordCh c) hmem (by simp [succStates]))
                    (by rw [hac]; rfl) hm
                · rw [if_neg hac]
            | wb =>
                rw [matchEnd_wb] at hm ⊢
                simp only [List.head?_cons] at hm ⊢
                by_cases hb : pwOf prev != pwOf (some a)
                · rw [if_pos hb] at hm ⊢
                  rw [← hout]
                  exact ih p q r hsafe pt pw prev (a :: t)
                    (by simp at hn ⊢; omega)
                    (statesFrom_closed p false (RElem.wb :: pt, pw) (pt, pw) hmem
                      (by simp [succStates])) hpw hm
                · rw [if_neg hb]
            | wsStar =>
                rw [matchEnd_wsStar_cons] at hm ⊢
                by_cases hsp : isSpaceCh a
                · rw [if_pos hsp] at hm ⊢
                  cases hin : matchEnd (RElem.wsStar :: pt) (some a) t with
                  | some rr =>
                      rw [hin] at hm
                      exact absurd hm (by simp)
                  | none =>
                      rw [hin] at hm
                      dsimp only at hm
                      have hcons :
                          matchEnd (RElem.wsStar :: pt) (some a) (subAll q r t) =
                            none :=
                        ih p q r hsafe (.wsStar :: pt) false (some a) t
                          (by simp at hn ⊢; omega)
                          (statesFrom_closed p false (RElem.wsStar :: pt, pw)
                            (RElem.wsStar :: pt, false) hmem (by simp [succStates]))
                          (by simp [pwOf, not_word_of_space a hsp]) hin
                      rw [hcons]
                      dsimp only
                      rw [← hout]
                      exact ih p q r hsafe pt pw prev (a :: t)
                        (by simp at hn ⊢; omega)
                        (statesFrom_closed p false (RElem.wsStar :: pt, pw) (pt, pw)
                          hmem (by simp [succStates])) hpw hm
                · rw [if_neg hsp] at hm ⊢
                  rw [← hout]
                  exact ih p q r hsafe pt pw prev (a :: t) (by simp at hn ⊢; omega)
                    (statesFrom_closed p false (RElem.wsStar :: pt, pw) (pt, pw)
                      hmem (by simp [succStates])) hpw hm
            | wsPlus =>
                rw [matchEnd_wsPlus_cons] at hm ⊢
                by_cases hsp : isSpaceCh a
                · rw [if_pos hsp] at hm ⊢
                  exact ih p q r hsafe (.wsStar :: pt) false (some a) t
                    (by simp at hn ⊢; omega)
                    (statesFrom_closed p false (RElem.wsPlus :: pt, pw)
                      (RElem.wsStar :: pt, false) hmem (by simp [succStates]))
                    (by simp [pwOf, not_word_of_space a hsp]) hm
                · rw [if_neg hsp]
            | nbPlus =>
                rw [matchEnd_nbPlus_cons] at hm ⊢
                by_cases hbr : a = '\x7d'
                · rw [if_pos hbr]
                · rw [if_neg hbr] at hm ⊢
                  exact ih p q r hsafe (.nbStar :: pt) (isWordCh a) (some a) t
                    (by simp at hn ⊢; omega)
                    (statesFrom_closed p false (RElem.nbPlus :: pt, pw)
                      (RElem.nbStar :: pt, isWordCh a) hmem
                      (by cases hw : isWordCh a <;> simp [succStates, hw]))
                    rfl hm
            | nbStar =>
                rw [matchEnd_nbStar_cons] at hm ⊢
                by_cases hbr : a = '\x7d'
                · rw [if_pos hbr] at hm ⊢
                  rw [← hout]
                  exact ih p q r hsafe pt pw prev (a :: t) (by simp at hn ⊢; omega)
                    (statesFrom_closed p false (RElem.nbStar :: pt, pw) (pt, pw)
                      hmem (by simp [succStates])) hpw hm
                · rw [if_neg hbr] at hm ⊢
                  cases hin : matchEnd (RElem.nbStar :: pt) (some a) t with
                  | some rr =>
                      rw [hin] at hm
                      exact absurd hm (by simp)
                  | none =>
                      rw [hin] at hm
                      dsimp only at hm
                      have hcons :
                          matchEnd (RElem.nbStar :: pt) (some a) (subAll q r t) =
                            none :=
                        ih p q r hsafe (.nbStar :: pt) (isWordCh a) (some a) t
                          (by simp at hn ⊢; omega)
                          (statesFrom_closed p false (RElem.nbStar :: pt, pw)
                            (RElem.nbStar :: pt, isWordCh a) hmem
                            (by cases hw : isWordCh a <;> simp [succStates, hw]))
                          rfl hin
                      rw [hcons]
                      dsimp only
                      rw [← hout]
                      exact ih p q r hsafe pt pw prev (a :: t)
                        (by simp at hn ⊢; omega)
                        (statesFrom_closed p false (RElem.nbStar :: pt, pw) (pt, pw)
                          hmem (by simp [succStates])) hpw hm
        · rw [hout]
          rcases hsafe (ps, pw) hmem with hnil | hviab
          · simp only at hnil
            subst hnil
            rw [matchEnd_nil_pat] at hm
            exact absurd hm (by simp)
          · exact viable_false_none ps pw r (subAll q r rem) prev hpw hviab

/-- A literal-headed pattern does not match the empty text. -/
theorem matchEnd_nil_of_litStart (p : List RElem) (prev : Option Char)
    (hp : litStart p = true) : matchEnd p prev [] = none := by
  cases p with
  | nil => simp [litStart] at hp
  | cons e pt =>
      cases e with
      | lit c => exact matchEnd_lit_nil c pt prev
      | wb => simp [litStart] at hp
      | wsStar => simp [litStart] at hp
      | wsPlus => simp [litStart] at hp
      | nbPlus => simp [litStart] at hp
      | nbStar => simp [litStart] at hp

/-- A literal-headed pattern consumes at least one character when it
matches. -/
theorem matchEnd_lt_of_litStart (p : List RElem) (prev : Option Char) (a : Char)
    (t rem : List Char) (hp : litStart p = true)
    (hm : matchEnd p prev (a :: t) = some rem) : rem.length ≤ t.length := by
  cases p with
  | nil => simp [litStart] at hp
  | cons e pt =>
      cases e with
      | lit c =>
          rw [matchEnd_lit_cons] at hm
          by_cases hac : a = c
          · rw [if_pos hac] at hm
            exact matchEnd_length (pt.length + t.length) pt (some a) t rem le_rfl hm
          · rw [if_neg hac] at hm
            exact absurd hm (by simp)
      | wb => simp [litStart] at hp
      | wsStar => simp [litStart] at hp
      | wsPlus => simp [litStart] at hp
      | nbPlus => simp [litStart] at hp
      | nbStar => simp [litStart] at hp

/-- If a literal-headed pattern matches a cons, the head equals the first
literal. -/
theorem matchEnd_head_of_litStart (c : Char) (pt : List RElem) (prev : Option Char)
    (a : Char) (t rem : List Char)
    (hm : matchEnd (.lit c :: pt) prev (a :: t) = some rem) : a = c := by
  rw [matchEnd_lit_cons] at hm
  by_cases hac : a = c
  · exact hac
  · rw [if_neg hac] at hm
    exact absurd hm (by simp)

/-- When a text has no match anywhere, no suffix of it matches. -/
theorem hasMatch_false_suffix :
    ∀ (s s2 : List Char) (p : List RElem), hasMatch p s = false → s2 <:+ s →
      matchEnd p none s2 = none := by
  intro s
  induction s with
  | nil =>
      intro s2 p hs hsuf
      rw [List.suffix_nil] at hsuf
      subst hsuf
      simp only [hasMatch] at hs
      simpa using hs
  | cons a t ih =>
      intro s2 p hs hsuf
      simp only [hasMatch, Bool.or_eq_false_iff] at hs
      obtain ⟨h1, h2⟩ := hs
      rcases List.suffix_cons_iff.mp hsuf with h | h
      · subst h
        simpa using h1
      · exact ih s2 p h2 h

/-- Appending a seam-safe replacement in front of a match-free text keeps it
match-free. -/
theorem hasMatch_append_false :
    ∀ (r : List Char) (p : List RElem) (z : List Char),
      (∀ u, u <:+ r → u = [] ∨ viable p false u = false) →
      hasMatch p z = false → hasMatch p (r ++ z) = false := by
  intro r
  induction r with
  | nil => intro p z hseam hz; simpa using hz
  | cons c r2 ih =>
      intro p z hseam hz
      simp only [List.cons_append, hasMatch, Bool.or_eq_false_iff]
      constructor
      · have hv : viable p false (c :: r2) = false := by
          rcases hseam (c :: r2) List.suffix_rfl with h | h
          · exact absurd h (by simp)
          · exact h
        have := viable_false_none p false (c :: r2) z none rfl hv
        simpa using this
      · exact ih p z
          (fun u hu => hseam u (hu.trans (List.suffix_cons c r2))) hz

/-- Main no-match theorem: after substituting with `q`, the pattern `p` has no
match anywhere in the output, provided (i) every position of the input where
`q` failed is also `p`-match-free, (ii) no state of `p` survives the
replacement, and (iii) no suffix of the replacement starts a `p`-match. -/
theorem hasMatch_subAll_false :
    ∀ (n : Nat) (p q : List RElem) (r : List Char) (s : List Char),
      litStart p = true → litStart q = true →
      (∀ st ∈ statesFrom p false, st.1 = [] ∨ viable st.1 st.2 r = false) →
      (∀ u, u <:+ r → u = [] ∨ viable p false u = false) →
      s.length ≤ n →
      (∀ s2, s2 <:+ s → matchEnd q none s2 = none → matchEnd p none s2 = none) →
      hasMatch p (subAll q r s) = false := by
  intro n
  induction n with
  | zero =>
      intro p q r s hlit hlitq hsafe hseam hn hpq
      have hs : s = [] := by
        cases s with
        | nil => rfl
        | cons a t => simp at hn
      subst hs
      simp only [subAll_nil, hasMatch]
      rw [matchEnd_nil_of_litStart p none hlit]
      rfl
  | succ n ih =>
      intro p q r s hlit hlitq hsafe hseam hn hpq
      cases s with
      | nil =>
          simp only [subAll_nil, hasMatch]
          rw [matchEnd_nil_of_litStart p none hlit]
          rfl
      | cons a t =>
        cases hq : matchEnd q none (a :: t) with
        | none =>
            have hout : subAll q r (a :: t) = a :: subAll q r t := by
              rw [subAll_cons, hq]
            rw [hout]
            simp only [hasMatch, Bool.or_eq_false_iff]
            constructor
            · have hp : matchEnd p none (a :: t) = none :=
                hpq (a :: t) List.suffix_rfl hq
              have hnone := matchEnd_none_subAll (2 * (a :: t).length + p.length)
                p q r hsafe p false none (a :: t) le_rfl (statesFrom_self p false)
                rfl hp
              rw [hout] at hnone
              simp [hnone]
            · exact ih p q r t hlit hlitq hsafe hseam (by simp at hn; omega)
                (fun s2 hsuf => hpq s2 (hsuf.trans (List.suffix_cons a t)))
        | some rem =>
            have hl : rem.length ≤ t.length :=
              matchEnd_lt_of_litStart q none a t rem hlitq hq
            have hout : subAll q r (a :: t) = r ++ subAll q r rem := by
              rw [subAll_cons, hq]
              dsimp only
              rw [if_pos hl]
            rw [hout]
            have hsufrem : rem <:+ (a :: t) :=
              matchEnd_suffix (q.length + (a :: t).length) q none (a :: t) rem
                le_rfl hq
            exact hasMatch_append_false r p (subAll q r rem) hseam
              (ih p q r rem hlit hlitq hsafe hseam
                (by have := hl; simp at hn ⊢; omega)
                (fun s2 hsuf => hpq s2 (hsuf.trans hsufrem)))

/-- A text without any match is left unchanged by the substitution. -/
theorem subAll_id_of_no_match :
    ∀ (s : List Char) (p : List RElem) (r : List Char), hasMatch p s = false →
      subAll p r s = s := by
  intro s
  induction s with
  | nil => intro p r h; simp
  | cons a t ih =>
      intro p r h
      simp only [hasMatch, Bool.or_eq_false_iff] at h
      obtain ⟨h1, h2⟩ := h
      have hq : matchEnd p none (a :: t) = none := by
        cases hq : matchEnd p none (a :: t) with
        | none => rfl
        | some rem => rw [hq] at h1; simp at h1
      rw [subAll_cons, hq]
      dsimp only
      rw [ih p r h2]

/-- A text without any match counts zero matches. -/
theorem cnt_zero_of_no_match :
    ∀ (s : List Char) (p : List RElem), hasMatch p s = false → cnt p s = 0 := by
  intro s
  induction s with
  | nil => intro p h; simp
  | cons a t ih =>
      intro p h
      simp only [hasMatch, Bool.or_eq_false_iff] at h
      obtain ⟨h1, h2⟩ := h
      have hq : matchEnd p none (a :: t) = none := by
        cases hq : matchEnd p none (a :: t) with
        | none => rfl
        | some rem => rw [hq] at h1; simp at h1
      rw [cnt_cons, hq]
      dsimp only
      exact ih p h2

/-- When a rule fires, the output text really differs from the input (the
replacement starts with a character different from the pattern's first
literal). -/
theorem subAll_ne_of_match :
    ∀ (s : List Char) (p : List RElem) (r : List Char), litStart p = true →
      headDiff p r = true → hasMatch p s = true → subAll p r s ≠ s := by
  intro s
  induction s with
  | nil =>
      intro p r hlit hhd h
      simp only [hasMatch] at h
      rw [matchEnd_nil_of_litStart p none hlit] at h
      simp at h
  | cons a t ih =>
      intro p r hlit hhd h
      cases hq : matchEnd p none (a :: t) with
      | some rem =>
          have hl : rem.length ≤ t.length :=
            matchEnd_lt_of_litStart p none a t rem hlit hq
          have hout : subAll p r (a :: t) = r ++ subAll p r rem := by
            rw [subAll_cons, hq]
            dsimp only
            rw [if_pos hl]
          rw [hout]
          cases p with
          | nil => simp [litStart] at hlit
          | cons e pt =>
            cases e with
            | lit c =>
                have hac : a = c := matchEnd_head_of_litStart c pt none a t rem hq
                cases r with
                | nil => simp [headDiff, firstLit] at hhd
                | cons d r2 =>
                    have hcd : c ≠ d := by
                      simp only [headDiff, firstLit, List.head?_cons] at hhd
                      simpa using hhd
                    simp only [List.cons_append, ne_eq, List.cons.injEq, not_and]
                    intro hda
                    exact absurd (hda.trans hac) (Ne.symm hcd)
            | wb => simp [litStart] at hlit
            | wsStar => simp [litStart] at hlit
            | wsPlus => simp [litStart] at hlit
            | nbPlus => simp [litStart] at hlit
            | nbStar => simp [litStart] at hlit
      | none =>
          have hout : subAll p r (a :: t) = a :: subAll p r t := by
            rw [subAll_cons, hq]
          rw [hout]
          simp only [hasMatch, hq, Bool.or_eq_false_iff] at h
          simp only [Option.isSome_none, Bool.false_or] at h
          have := ih p r hlit hhd h
          simp [this]

/-- If some suffix of the text matches, the text has a match. -/
theorem hasMatch_of_suffix :
    ∀ (s s2 : List Char) (p : List RElem), s2 <:+ s →
      (matchEnd p none s2).isSome = true → hasMatch p s = true := by
  intro s
  induction s with
  | nil =>
      intro s2 p hsuf hm
      rw [List.suffix_nil] at hsuf
      subst hsuf
      simp only [hasMatch]
      exact hm
  | cons a t ih =>
      intro s2 p hsuf hm
      rcases List.suffix_cons_iff.mp hsuf with h | h
      · subst h
        simp only [hasMatch, hm, Bool.true_or]
      · simp only [hasMatch, ih s2 p h hm, Bool.or_true]

/-- When a rule fires anywhere, the replacement string appears in the
output. -/
theorem repl_infix_subAll :
    ∀ (s : List Char) (p : List RElem) (r : List Char), litStart p = true →
      hasMatch p s = true → r <:+: subAll p r s := by
  intro s
  induction s with
  | nil =>
      intro p r hlit h
      simp only [hasMatch] at h
      rw [matchEnd_nil_of_litStart p none hlit] at h
      simp at h
  | cons a t ih =>
      intro p r hlit h
      cases hq : matchEnd p none (a :: t) with
      | some rem =>
          have hl : rem.length ≤ t.length :=
            matchEnd_lt_of_litStart p none a t rem hlit hq
          have hout : subAll p r (a :: t) = r ++ subAll p r rem := by
            rw [subAll_cons, hq]
            dsimp only
            rw [if_pos hl]
          rw [hout]
          exact (List.prefix_append r (subAll p r rem)).isInfix
      | none =>
          have hout : subAll p r (a :: t) = a :: subAll p r t := by
            rw [subAll_cons, hq]
          rw [hout]
          simp only [hasMatch, hq, Option.isSome_none, Bool.false_or] at h
          exact List.infix_cons (ih p r hlit h)

/-- Unpack the state half of `overlapFree`. -/
theorem overlapFree_states (p : List RElem) (r : List Char)
    (h : overlapFree p r = true) :
    ∀ st ∈ statesFrom p false, st.1 = [] ∨ viable st.1 st.2 r = false := by
  intro st hst
  simp only [overlapFree, Bool.and_eq_true, List.all_eq_true] at h
  have h2 := h.1 st hst
  simp only [Bool.or_eq_true, Bool.not_eq_true', List.isEmpty_iff] at h2
  exact h2

/-- Unpack the seam half of `overlapFree`. -/
theorem overlapFree_seam (p : List RElem) (r : List Char)
    (h : overlapFree p r = true) :
    ∀ u, u <:+ r → u = [] ∨ viable p false u = false := by
  intro u hu
  simp only [overlapFree, Bool.and_eq_true, List.all_eq_true] at h
  have h2 := h.2 u ((List.mem_tails u r).mpr hu)
  simp only [Bool.or_eq_true, Bool.not_eq_true', List.isEmpty_iff] at h2
  exact h2

/-- Eliminating a rule: after substituting with `p` itself (overlap-free with
its own replacement), no match of `p` remains. -/
theorem hasMatch_self_subAll_false (p : List RElem) (r : List Char)
    (hlit : litStart p = true) (hover : overlapFree p r = true) (s : List Char) :
    hasMatch p (subAll p r s) = false :=
  hasMatch_subAll_false s.length p p r s hlit hlit (overlapFree_states p r hover)
    (overlapFree_seam p r hover) le_rfl (fun _ _ h => h)

/-- Preserving absence of matches: if `p` has no match in `s`, it has none in
the output of any overlap-free substitution. -/
theorem hasMatch_subAll_preserved (p q : List RElem) (r : List Char)
    (hlitp : litStart p = true) (hlitq : litStart q = true)
    (hover : overlapFree p r = true) (s : List Char)
    (hs : hasMatch p s = false) : hasMatch p (subAll q r s) = false :=
  hasMatch_subAll_false s.length p q r s hlitp hlitq (overlapFree_states p r hover)
    (overlapFree_seam p r hover) le_rfl
    (fun s2 hsuf _ => hasMatch_false_suffix s s2 p hs hsuf)

/-- Absence of matches of `p` is preserved along a whole rule-table fold. -/
theorem hasMatch_fixText_preserved :
    ∀ (rs : List Rule) (p : List RElem), litStart p = true →
      (∀ ru ∈ rs, litStart ru.pat = true ∧ overlapFree p ru.repl = true) →
      ∀ s, hasMatch p s = false → hasMatch p (fixText rs s) = false := by
  intro rs
  induction rs with
  | nil => intro p _ _ s hs; exact hs
  | cons ru rest ih =>
      intro p hlitp hall s hs
      have hstep : hasMatch p (subAll ru.pat ru.repl s) = false :=
        hasMatch_subAll_preserved p ru.pat ru.repl hlitp
          (hall ru (by simp)).1 (hall ru (by simp)).2 s hs
      exact ih p hlitp (fun rj hj => hall rj (by simp [hj])) _ hstep

/-- After the whole fold, no rule of the table has any remaining match. -/
theorem hasMatch_fixText_false :
    ∀ (rs : List Rule),
      (∀ ri ∈ rs, litStart ri.pat = true) →
      (∀ ri ∈ rs, ∀ rj ∈ rs, overlapFree ri.pat rj.repl = true) →
      ∀ s ru, ru ∈ rs → hasMatch ru.pat (fixText rs s) = false := by
  intro rs
  induction rs with
  | nil => intro _ _ s ru hmem; simp at hmem
  | cons ri rest ih =>
      intro hlits hover s ru hmem
      rcases List.mem_cons.mp hmem with h | h
      · subst h
        have helim : hasMatch ru.pat (subAll ru.pat ru.repl s) = false :=
          hasMatch_self_subAll_false ru.pat ru.repl (hlits ru (by simp))
            (hover ru (by simp) ru (by simp)) s
        exact hasMatch_fixText_preserved rest ru.pat (hlits ru (by simp))
          (fun rj hj => ⟨hlits rj (by simp [hj]), hover ru (by simp) rj (by simp [hj])⟩)
          _ helim
      · exact ih (fun rj hj => hlits rj (by simp [hj]))
          (fun ra ha rb hb => hover ra (by simp [ha]) rb (by simp [hb])) _ ru h

/-- A fold over match-free text is the identity and counts nothing. -/
theorem foldl_applyRule_id :
    ∀ (rs : List Rule) (t : List Char) (n : Nat),
      (∀ ru ∈ rs, hasMatch ru.pat t = false) →
      rs.foldl applyRule (t, n) = (t, n) := by
  intro rs
  induction rs with
  | nil => intro t n _; rfl
  | cons ru rest ih =>
      intro t n hall
      have hid : subAll ru.pat ru.repl t = t :=
        subAll_id_of_no_match t ru.pat ru.repl (hall ru (by simp))
      have hstep : applyRule (t, n) ru = (t, n) := by
        simp only [applyRule, hid]
        simp
      rw [List.foldl_cons, hstep]
      exact ih t n (fun rj hj => hall rj (by simp [hj]))

/-- The text component of the counting fold is the plain text fold. -/
theorem foldl_applyRule_fst :
    ∀ (rs : List Rule) (s : List Char) (n : Nat),
      (rs.foldl applyRule (s, n)).1 = fixText rs s := by
  intro rs
  induction rs with
  | nil => intro s n; rfl
  | cons ru rest ih =>
      intro s n
      rw [List.foldl_cons]
      simp only [applyRule]
      by_cases hne : subAll ru.pat ru.repl s ≠ s
      · rw [if_pos hne]
        exact ih _ _
      · rw [if_neg hne]
        push_neg at hne
        show (rest.foldl applyRule (s, n)).1 = fixText rest (subAll ru.pat ru.repl s)
        rw [hne, ih s n]

/-- Consuming a run of literal characters. -/
theorem matchEnd_lits_append :
    ∀ (w : List Char) (ps : List RElem) (prev : Option Char) (z : List Char),
      matchEnd (w.map RElem.lit ++ ps) prev (w ++ z) =
        matchEnd ps (prevAfter prev w) z := by
  intro w
  induction w with
  | nil => intro ps prev z; simp [prevAfter]
  | cons a w2 ih =>
      intro ps prev z
      simp only [List.map_cons, List.cons_append, matchEnd_lit_cons, if_pos rfl]
      rw [ih ps (some a) z]
      simp only [prevAfter, List.getLast?_cons]
      cases hw : w2.getLast? with
      | none =>
          have : w2 = [] := by
            cases w2 with
            | nil => rfl
            | cons b w3 => simp [List.getLast?_cons] at hw
          subst this
          rfl
      | some c => rfl

/-- Skipping `\s*` in front of a non-space character. -/
theorem matchEnd_wsStar_skip (ps : List RElem) (prev : Option Char) (b : Char)
    (z : List Char) (hb : isSpaceCh b = false) :
    matchEnd (.wsStar :: ps) prev (b :: z) = matchEnd ps prev (b :: z) := by
  rw [matchEnd_wsStar_cons, if_neg (by simp [hb])]

/-- Consuming one space with `\s*` when the continuation then succeeds. -/
theorem matchEnd_wsStar_consume (ps : List RElem) (prev : Option Char) (c : Char)
    (z w : List Char) (hc : isSpaceCh c = true)
    (hin : matchEnd (.wsStar :: ps) (some c) z = some w) :
    matchEnd (.wsStar :: ps) prev (c :: z) = some w := by
  rw [matchEnd_wsStar_cons, if_pos hc, hin]

/-- Unfolding `\s+` on a space. -/
theorem matchEnd_wsPlus_space (ps : List RElem) (prev : Option Char) (c : Char)
    (z : List Char) (hc : isSpaceCh c = true) :
    matchEnd (.wsPlus :: ps) prev (c :: z) = matchEnd (.wsStar :: ps) (some c) z := by
  rw [matchEnd_wsPlus_cons, if_pos hc]

/-- Extract the literal-start facts from a safe table. -/
theorem tableSafe_litStart (rs : List Rule) (h : tableSafe rs = true) :
    ∀ ri ∈ rs, litStart ri.pat = true := by
  intro ri hi
  simp only [tableSafe, List.all_eq_true, Bool.and_eq_true] at h
  exact (((h ri hi).1).1).1

/-- Extract the head-difference facts from a safe table. -/
theorem tableSafe_headDiff (rs : List Rule) (h : tableSafe rs = true) :
    ∀ ri ∈ rs, headDiff ri.pat ri.repl = true := by
  intro ri hi
  simp only [tableSafe, List.all_eq_true, Bool.and_eq_true] at h
  exact (((h ri hi).1).1).2

/-- Extract the pairwise overlap-freedom facts from a safe table. -/
theorem tableSafe_overlap (rs : List Rule) (h : tableSafe rs = true) :
    ∀ ri ∈ rs, ∀ rj ∈ rs, overlapFree ri.pat rj.repl = true := by
  intro ri hi rj hj
  simp only [tableSafe, List.all_eq_true, Bool.and_eq_true] at h
  exact (h ri hi).2 rj hj

/-- The script's replacement table satisfies every decidable side condition:
patterns are literal-headed, replacements are non-empty and differ at the
first character, and no pattern can overlap any replacement string. -/
theorem color_replacements_safe : tableSafe color_replacements = true := by decide

/-- The counting fold of the script agrees with the specification fold: the
script adds a rule's match count only when the text changed, but a rule that
does not change the text has no match and so counts zero anyway. -/
theorem foldl_applyRule_eq_countStep :
    ∀ (rs : List Rule),
      (∀ ri ∈ rs, litStart ri.pat = true) →
      (∀ ri ∈ rs, headDiff ri.pat ri.repl = true) →
      ∀ (s : List Char) (n : Nat),
        rs.foldl applyRule (s, n) = rs.foldl countStep (s, n) := by
  intro rs
  induction rs with
  | nil => intro _ _ s n; rfl
  | cons ru rest ih =>
      intro hlits hhd s n
      rw [List.foldl_cons, List.foldl_cons]
      have hstep : applyRule (s, n) ru = countStep (s, n) ru := by
        simp only [applyRule, countStep]
        by_cases hne : subAll ru.pat ru.repl s ≠ s
        · rw [if_pos hne]
        · rw [if_neg hne]
          push_neg at hne
          have hnm : hasMatch ru.pat s = false := by
            cases hq : hasMatch ru.pat s with
            | false => rfl
            | true =>
                exact absurd hne
                  (subAll_ne_of_match s ru.pat ru.repl (hlits ru (by simp))
                    (hhd ru (by simp)) hq)
          rw [hne, cnt_zero_of_no_match s ru.pat hnm]
          simp
      rw [hstep]
      exact ih (fun ri hi => hlits ri (by simp [hi]))
        (fun ri hi => hhd ri (by simp [hi])) _ _

/-- A pattern that matches somewhere is counted at least once. -/
theorem cnt_pos_of_hasMatch :
    ∀ (s : List Char) (p : List RElem), litStart p = true → hasMatch p s = true →
      0 < cnt p s := by
  intro s
  induction s with
  | nil =>
      intro p hlit h
      simp only [hasMatch] at h
      rw [matchEnd_nil_of_litStart p none hlit] at h
      simp at h
  | cons a t ih =>
      intro p hlit h
      cases hq : matchEnd p none (a :: t) with
      | some rem =>
          have hl : rem.length ≤ t.length :=
            matchEnd_lt_of_litStart p none a t rem hlit hq
          rw [cnt_cons, hq]
          dsimp only
          rw [if_pos hl]
          omega
      | none =>
          rw [cnt_cons, hq]
          dsimp only
          simp only [hasMatch, hq, Option.isSome_none, Bool.false_or] at h
          exact ih p hlit h

/-- The gradient pattern, reassociated for stepwise evaluation. -/
theorem gradientPat_assoc :
    gradientPat =
      lits "linear-gradient(135deg," ++ (.wsStar :: (lits "#a855f7" ++
        (.wsPlus :: (lits "0%," ++ (.wsStar :: (lits "#9333ea" ++
          (.wsPlus :: lits "100%)"))))))) := by
  simp [gradientPat, List.append_assoc]

/-- The gradient pattern matches the exact gradient text and consumes exactly
it, whatever follows. -/
theorem matchEnd_gradText (prev : Option Char) (y : List Char) :
    matchEnd gradientPat prev (gradText ++ y) = some y := by
  have h8 : ∀ pv, matchEnd (lits "100%)") pv (("100%)").toList ++ y) = some y := by
    intro pv
    have h := matchEnd_lits_append ("100%)").toList [] pv y
    simpa [lits] using h
  have h7 : ∀ pv, matchEnd (.wsPlus :: lits "100%)") pv
      (' ' :: (("100%)").toList ++ y)) = some y := by
    intro pv
    rw [matchEnd_wsPlus_space _ _ ' ' _ (by decide)]
    show matchEnd (.wsStar :: lits "100%)") (some ' ')
      ('1' :: (("00%)").toList ++ y)) = some y
    rw [matchEnd_wsStar_skip _ _ '1' _ (by decide)]
    exact h8 _
  have h6 : ∀ pv, matchEnd (lits "#9333ea" ++ (.wsPlus :: lits "100%)")) pv
      (("#9333ea").toList ++ (' ' :: (("100%)").toList ++ y))) = some y := by
    intro pv
    show matchEnd (("#9333ea").toList.map RElem.lit ++ (.wsPlus :: lits "100%)")) pv
      (("#9333ea").toList ++ (' ' :: (("100%)").toList ++ y))) = some y
    rw [matchEnd_lits_append]
    exact h7 _
  have h5 : ∀ pv, matchEnd
      (.wsStar :: (lits "#9333ea" ++ (.wsPlus :: lits "100%)"))) pv
      (' ' :: (("#9333ea").toList ++ (' ' :: (("100%)").toList ++ y)))) = some y := by
    intro pv
    apply matchEnd_wsStar_consume _ _ ' ' _ _ (by decide)
    show matchEnd (.wsStar :: (lits "#9333ea" ++ (.wsPlus :: lits "100%)")))
      (some ' ')
      ('#' :: (("9333ea").toList ++ (' ' :: (("100%)").toList ++ y)))) = some y
    rw [matchEnd_wsStar_skip _ _ '#' _ (by decide)]
    exact h6 _
  have h4 : ∀ pv, matchEnd (lits "0%," ++
      (.wsStar :: (lits "#9333ea" ++ (.wsPlus :: lits "100%)")))) pv
      (("0%,").toList ++ (' ' :: (("#9333ea").toList ++
        (' ' :: (("100%)").toList ++ y))))) = some y := by
    intro pv
    show matchEnd (("0%,").toList.map RElem.lit ++
      (.wsStar :: (lits "#9333ea" ++ (.wsPlus :: lits "100%)")))) pv
      (("0%,").toList ++ (' ' :: (("#9333ea").toList ++
        (' ' :: (("100%)").toList ++ y))))) = some y
    rw [matchEnd_lits_append]
    exact h5 _
  have h3 : ∀ pv, matchEnd (.wsPlus :: (lits "0%," ++
      (.wsStar :: (lits "#9333ea" ++ (.wsPlus :: lits "100%)"))))) pv
      (' ' :: (("0%,").toList ++ (' ' :: (("#9333ea").toList ++
        (' ' :: (("100%)").toList ++ y)))))) = some y := by
    intro pv
    rw [matchEnd_wsPlus_space _ _ ' ' _ (by decide)]
    show matchEnd (.wsStar :: (lits "0%," ++
      (.wsStar :: (lits "#9333ea" ++ (.wsPlus :: lits "100%)"))))) (some ' ')
      ('0' :: (("%,").toList ++ (' ' :: (("#9333ea").toList ++
        (' ' :: (("100%)").toList ++ y)))))) = some y
    rw [matchEnd_wsStar_skip _ _ '0' _ (by decide)]
    exact h4 _
  have h2 : ∀ pv, matchEnd (lits "#a855f7" ++ (.wsPlus :: (lits "0%," ++
      (.wsStar :: (lits "#9333ea" ++ (.wsPlus :: lits "100%)")))))) pv
      (("#a855f7").toList ++ (' ' :: (("0%,").toList ++
        (' ' :: (("#9333ea").toList ++ (' ' :: (("100%)").toList ++ y))))))) =
      some y := by
    intro pv
    show matchEnd (("#a855f7").toList.map RElem.lit ++ (.wsPlus :: (lits "0%," ++
      (.wsStar :: (lits "#9333ea" ++ (.wsPlus :: lits "100%)")))))) pv
      (("#a855f7").toList ++ (' ' :: (("0%,").toList ++
        (' ' :: (("#9333ea").toList ++ (' ' :: (("100%)").toList ++ y))))))) =
      some y
    rw [matchEnd_lits_append]
    exact h3 _
  have h1 : ∀ pv, matchEnd (.wsStar :: (lits "#a855f7" ++ (.wsPlus ::
      (lits "0%," ++ (.wsStar :: (lits "#9333ea" ++
        (.wsPlus :: lits "100%)"))))))) pv
      (' ' :: (("#a855f7").toList ++ (' ' :: (("0%,").toList ++
        (' ' :: (("#9333ea").toList ++ (' ' :: (("100%)").toList ++ y)))))))) =
      some y := by
    intro pv
    apply matchEnd_wsStar_consume _ _ ' ' _ _ (by decide)
    show matchEnd (.wsStar :: (lits "#a855f7" ++ (.wsPlus :: (lits "0%," ++
      (.wsStar :: (lits "#9333ea" ++ (.wsPlus :: lits "100%)"))))))) (some ' ')
      ('#' :: (("a855f7").toList ++ (' ' :: (("0%,").toList ++
        (' ' :: (("#9333ea").toList ++ (' ' :: (("100%)").toList ++ y)))))))) =
      some y
    rw [matchEnd_wsStar_skip _ _ '#' _ (by decide)]
    exact h2 _
  rw [gradientPat_assoc]
  show matchEnd (("linear-gradient(135deg,").toList.map RElem.lit ++
    (.wsStar :: (lits "#a855f7" ++ (.wsPlus :: (lits "0%," ++
      (.wsStar :: (lits "#9333ea" ++ (.wsPlus :: lits "100%)")))))))) prev
    (("linear-gradient(135deg,").toList ++
      (' ' :: (("#a855f7").toList ++ (' ' :: (("0%,").toList ++
        (' ' :: (("#9333ea").toList ++ (' ' :: (("100%)").toList ++ y))))))))) =
    some y
  rw [matchEnd_lits_append]
  exact h1 _

/-- Unpack a decidable state-safety check. -/
theorem statesAll_unpack (p : List RElem) (x : List Char)
    (h : ((statesFrom p false).all fun st =>
      st.1.isEmpty || !(viable st.1 st.2 x)) = true) :
    ∀ st ∈ statesFrom p false, st.1 = [] ∨ viable st.1 st.2 x = false := by
  intro st hst
  rw [List.all_eq_true] at h
  have h2 := h st hst
  simp only [Bool.or_eq_true, Bool.not_eq_true', List.isEmpty_iff] at h2
  exact h2

/-- Unpack a decidable start-position safety check. -/
theorem tailsAll_unpack (p : List RElem) (x : List Char)
    (h : (x.tails.all fun u => u.isEmpty || !(viable p false u)) = true) :
    ∀ u, u <:+ x → u = [] ∨ viable p false u = false := by
  intro u hu
  rw [List.all_eq_true] at h
  have h2 := h u ((List.mem_tails u x).mpr hu)
  simp only [Bool.or_eq_true, Bool.not_eq_true', List.isEmpty_iff] at h2
  exact h2

/-- A match attempt launched to the left of a protected substring `target`
either fails or finishes strictly before `target`, provided no matcher state
of the pattern survives being fed `target`. -/
theorem matchEnd_stops_before :
    ∀ (n : Nat) (p : List RElem) (target : List Char),
      (∀ st ∈ statesFrom p false, st.1 = [] ∨ viable st.1 st.2 target = false) →
      ∀ (ps : List RElem) (pw : Bool) (prev : Option Char) (u y rem : List Char),
        ps.length + u.length ≤ n → (ps, pw) ∈ statesFrom p false →
        pwOf prev = pw → matchEnd ps prev (u ++ (target ++ y)) = some rem →
        ∃ u2, u2 <:+ u ∧ rem = u2 ++ (target ++ y) := by
  intro n
  induction n with
  | zero =>
      intro p target hsafe ps pw prev u y rem hn hmem hpw hm
      have hps : ps = [] := by
        cases ps with
        | nil => rfl
        | cons e pt => simp at hn
      have hu : u = [] := by
        cases u with
        | nil => rfl
        | cons a t => simp at hn
      subst hps hu
      simp only [matchEnd_nil_pat, List.nil_append, Option.some.injEq] at hm
      exact ⟨[], List.suffix_rfl, by rw [← hm]; simp⟩
  | succ n ih =>
      intro p target hsafe ps pw prev u y rem hn hmem hpw hm
      cases hps : ps with
      | nil =>
          subst hps
          simp only [matchEnd_nil_pat, Option.some.injEq] at hm
          exact ⟨u, List.suffix_rfl, by rw [← hm]⟩
      | cons e pt =>
        subst hps
        cases u with
        | nil =>
            rcases hsafe (e :: pt, pw) hmem with hnil | hviab
            · simp at hnil
            · rw [List.nil_append] at hm
              rw [viable_false_none (e :: pt) pw target y prev hpw hviab] at hm
              exact absurd hm (by simp)
        | cons a u2 =>
          cases e with
          | lit c =>
              rw [List.cons_append, matchEnd_lit_cons] at hm
              by_cases hac : a = c
              · rw [if_pos hac] at hm
                obtain ⟨u3, hsuf, heq⟩ := ih p target hsafe pt (isWordCh c) (some a)
                  u2 y rem (by simp at hn ⊢; omega)
                  (statesFrom_closed p false (RElem.lit c :: pt, pw) (pt, isWordCh c)
                    hmem (by simp [succStates]))
                  (by rw [hac]; rfl) hm
                exact ⟨u3, hsuf.trans (List.suffix_cons a u2), heq⟩
              · rw [if_neg hac] at hm
                exact absurd hm (by simp)
          | wb =>
              rw [List.cons_append, matchEnd_wb] at hm
              simp only [List.head?_cons] at hm
              by_cases hb : pwOf prev != pwOf (some a)
              · rw [if_pos hb] at hm
                obtain ⟨u3, hsuf, heq⟩ := ih p target hsafe pt pw prev (a :: u2) y
                  rem (by simp at hn ⊢; omega)
                  (statesFrom_closed p false (RElem.wb :: pt, pw) (pt, pw) hmem
                    (by simp [succStates])) hpw (by simpa using hm)
                exact ⟨u3, hsuf, heq⟩
              · rw [if_neg hb] at hm
                exact absurd hm (by simp)
          | wsStar =>
              rw [List.cons_append, matchEnd_wsStar_cons] at hm
              by_cases hsp : isSpaceCh a
              · rw [if_pos hsp] at hm
                cases hin : matchEnd (RElem.wsStar :: pt) (some a)
                    (u2 ++ (target ++ y)) with
                | some rr =>
                    rw [hin] at hm
                    simp only [Option.some.injEq] at hm
                    subst hm
                    obtain ⟨u3, hsuf, heq⟩ := ih p target hsafe (.wsStar :: pt)
                      false (some a) u2 y rr (by simp at hn ⊢; omega)
                      (statesFrom_closed p false (RElem.wsStar :: pt, pw)
                        (RElem.wsStar :: pt, false) hmem (by simp [succStates]))
                      (by simp [pwOf, not_word_of_space a hsp]) hin
                    exact ⟨u3, hsuf.trans (List.suffix_cons a u2), heq⟩
                | none =>
                    rw [hin] at hm
                    dsimp only at hm
                    obtain ⟨u3, hsuf, heq⟩ := ih p target hsafe pt pw prev (a :: u2)
                      y rem (by simp at hn ⊢; omega)
                      (statesFrom_closed p false (RElem.wsStar :: pt, pw) (pt, pw)
                        hmem (by simp [succStates])) hpw (by simpa using hm)
                    exact ⟨u3, hsuf, heq⟩
              · rw [if_neg hsp] at hm
                obtain ⟨u3, hsuf, heq⟩ := ih p target hsafe pt pw prev (a :: u2) y
                  rem (by simp at hn ⊢; omega)
                  (statesFrom_closed p false (RElem.wsStar :: pt, pw) (pt, pw) hmem
                    (by simp [succStates])) hpw (by simpa using hm)
                exact ⟨u3, hsuf, heq⟩
          | wsPlus =>
              rw [List.cons_append, matchEnd_wsPlus_cons] at hm
              by_cases hsp : isSpaceCh a
              · rw [if_pos hsp] at hm
                obtain ⟨u3, hsuf, heq⟩ := ih p target hsafe (.wsStar :: pt) false
                  (some a) u2 y rem (by simp at hn ⊢; omega)
                  (statesFrom_closed p false (RElem.wsPlus :: pt, pw)
                    (RElem.wsStar :: pt, false) hmem (by simp [succStates]))
                  (by simp [pwOf, not_word_of_space a hsp]) hm
                exact ⟨u3, hsuf.trans (List.suffix_cons a u2), heq⟩
              · rw [if_neg hsp] at hm
                exact absurd hm (by simp)
          | nbPlus =>
              rw [List.cons_append, matchEnd_nbPlus_cons] at hm
              by_cases hbr : a = '\x7d'
              · rw [if_pos hbr] at hm
                exact absurd hm (by simp)
              · rw [if_neg hbr] at hm
                obtain ⟨u3, hsuf, heq⟩ := ih p target hsafe (.nbStar :: pt)
                  (isWordCh a) (some a) u2 y rem (by simp at hn ⊢; omega)
                  (statesFrom_closed p false (RElem.nbPlus :: pt, pw)
                    (RElem.nbStar :: pt, isWordCh a) hmem
                    (by cases hw : isWordCh a <;> simp [succStates, hw])) rfl hm
                exact ⟨u3, hsuf.trans (List.suffix_cons a u2), heq⟩
          | nbStar =>
              rw [List.cons_append, matchEnd_nbStar_cons] at hm
              by_cases hbr : a = '\x7d'
              · rw [if_pos hbr] at hm
                obtain ⟨u3, hsuf, heq⟩ := ih p target hsafe pt pw prev (a :: u2) y
                  rem (by simp at hn ⊢; omega)
                  (statesFrom_closed p false (RElem.nbStar :: pt, pw) (pt, pw) hmem
                    (by simp [succStates])) hpw (by simpa using hm)
                exact ⟨u3, hsuf, heq⟩
              · rw [if_neg hbr] at hm
                cases hin : matchEnd (RElem.nbStar :: pt) (some a)
                    (u2 ++ (target ++ y)) with
                | some rr =>
                    rw [hin] at hm
                    simp only [Option.some.injEq] at hm
                    subst hm
                    obtain ⟨u3, hsuf, heq⟩ := ih p target hsafe (.nbStar :: pt)
                      (isWordCh a) (some a) u2 y rr (by simp at hn ⊢; omega)
                      (statesFrom_closed p false (RElem.nbStar :: pt, pw)
                        (RElem.nbStar :: pt, isWordCh a) hmem
                        (by cases hw : isWordCh a <;> simp [succStates, hw])) rfl hin
                    exact ⟨u3, hsuf.trans (List.suffix_cons a u2), heq⟩
                | none =>
                    rw [hin] at hm
                    dsimp only at hm
                    obtain ⟨u3, hsuf, heq⟩ := ih p target hsafe pt pw prev (a :: u2)
                      y rem (by simp at hn ⊢; omega)
                      (statesFrom_closed p false (RElem.nbStar :: pt, pw) (pt, pw)
                        hmem (by simp [succStates])) hpw (by simpa using hm)
                    exact ⟨u3, hsuf, heq⟩

/-- A substring at which no match can start is copied verbatim by the
scanner. -/
theorem subAll_copy_target :
    ∀ (target : List Char) (p : List RElem) (r : List Char),
      (∀ u, u <:+ target → u = [] ∨ viable p false u = false) →
      ∀ z, subAll p r (target ++ z) = target ++ subAll p r z := by
  intro target
  induction target with
  | nil => intro p r _ z; simp
  | cons c tg ih =>
      intro p r hcond z
      have hv : viable p false (c :: tg) = false := by
        rcases hcond (c :: tg) List.suffix_rfl with h | h
        · exact absurd h (by simp)
        · exact h
      have hnone : matchEnd p none ((c :: tg) ++ z) = none :=
        viable_false_none p false (c :: tg) z none rfl hv
      rw [List.cons_append, subAll_cons]
      rw [show matchEnd p none (c :: (tg ++ z)) = none from by simpa using hnone]
      dsimp only
      rw [ih p r (fun u hu => hcond u (hu.trans (List.suffix_cons c tg))) z]
      simp

/-- Scanning over a prefix `u` in front of a protected `target`: the output is
some processed prefix followed by whatever the scanner produces from `target`
onwards (the landing behaviour `OUT` is a parameter, instantiated either with
verbatim copying or with the local rewrite of the colour property). -/
theorem subAll_around :
    ∀ (n : Nat) (p : List RElem) (r target : List Char)
      (OUT : List Char → List Char), litStart p = true →
      (∀ st ∈ statesFrom p false, st.1 = [] ∨ viable st.1 st.2 target = false) →
      (∀ z, subAll p r (target ++ z) = OUT z) →
      ∀ (u z : List Char), u.length ≤ n →
        ∃ w, subAll p r (u ++ (target ++ z)) = w ++ OUT z := by
  intro n
  induction n with
  | zero =>
      intro p r target OUT hlit hstates hbase u z hn
      have hu : u = [] := by
        cases u with
        | nil => rfl
        | cons a t => simp at hn
      subst hu
      exact ⟨[], by simpa using hbase z⟩
  | succ n ih =>
      intro p r target OUT hlit hstates hbase u z hn
      cases u with
      | nil => exact ⟨[], by simpa using hbase z⟩
      | cons a u2 =>
        rw [List.cons_append]
        cases hq : matchEnd p none (a :: (u2 ++ (target ++ z))) with
        | none =>
            rw [subAll_cons, hq]
            dsimp only
            obtain ⟨w, hw⟩ := ih p r target OUT hlit hstates hbase u2 z
              (by simp at hn; omega)
            exact ⟨a :: w, by rw [hw]; simp⟩
        | some rem =>
            have hm2 : matchEnd p none ((a :: u2) ++ (target ++ z)) = some rem := by
              simpa using hq
            obtain ⟨u3, hsuf, heq⟩ := matchEnd_stops_before
              (p.length + (a :: u2).length) p target hstates p false none (a :: u2)
              z rem le_rfl (statesFrom_self p false) rfl hm2
            have hl : rem.length ≤ (u2 ++ (target ++ z)).length :=
              matchEnd_lt_of_litStart p none a (u2 ++ (target ++ z)) rem hlit hq
            rw [subAll_cons, hq]
            dsimp only
            rw [if_pos hl]
            have hlen : u3.length ≤ u2.length := by
              rcases List.suffix_cons_iff.mp hsuf with h | h
              · subst h
                subst heq
                rw [List.length_append] at hl
                simp only [List.length_cons, List.length_append] at hl ⊢
                omega
              · exact List.IsSuffix.length_le h
            obtain ⟨w, hw⟩ := ih p r target OUT hlit hstates hbase u3 z
              (by simp at hn; omega)
            refine ⟨r ++ w, ?_⟩
            rw [heq, hw, List.append_assoc]

/-- Evaluation of the bare `#9333ea\b` rule on the token followed by
anything: it matches exactly when the next character is not a word
character (or the text ends). -/
theorem matchEnd_hexTok (prev : Option Char) (y : List Char) :
    matchEnd (hexPat "#9333ea") prev (("#9333ea").toList ++ y) =
      if pwOf y.head? then none else some y := by
  show matchEnd (("#9333ea").toList.map RElem.lit ++ [.wb]) prev
    (("#9333ea").toList ++ y) = _
  rw [matchEnd_lits_append, matchEnd_wb]
  have hpa : prevAfter prev (("#9333ea").toList) = some 'a' := rfl
  rw [hpa]
  have hw : pwOf (some 'a') = true := by decide
  rw [hw]
  cases hy : pwOf y.head? <;> simp

/-- The bare `#9333ea\b` rule matches the token when a semicolon follows. -/
theorem matchEnd_tok_semi (v : List Char) :
    matchEnd (hexPat "#9333ea") none (("#9333ea").toList ++ (';' :: v)) =
      some (';' :: v) := by
  rw [matchEnd_hexTok]
  rfl

/-- Local behaviour of the `#9333ea\b` rule on the property text
`color: #9333ea;`: the leading `color: ` is copied, the token is replaced,
and the `;` survives. -/
theorem subAll_occ (z : List Char) :
    subAll (hexPat "#9333ea") (("var(--primary)").toList) (colorProp ++ z) =
      ("color: ").toList ++ (("var(--primary)").toList ++
        (';' :: subAll (hexPat "#9333ea") (("var(--primary)").toList) z)) := by
  have hd : colorProp ++ z =
      ("color: ").toList ++ (("#9333ea").toList ++ (';' :: z)) := rfl
  rw [hd]
  rw [subAll_copy_target (("color: ").toList) (hexPat "#9333ea")
    (("var(--primary)").toList) (tailsAll_unpack _ _ (by decide))]
  congr 1
  have hsemi : subAll (hexPat "#9333ea") (("var(--primary)").toList) (';' :: z) =
      ';' :: subAll (hexPat "#9333ea") (("var(--primary)").toList) z := by
    rw [subAll_cons]
    rw [show matchEnd (hexPat "#9333ea") none (';' :: z) = none from by
      show matchEnd (.lit '#' :: (lits "9333ea" ++ [.wb])) none (';' :: z) = none
      rw [matchEnd_lit_cons, if_neg (by decide)]]
  show subAll (hexPat "#9333ea") (("var(--primary)").toList)
    ('#' :: (("9333ea").toList ++ (';' :: z))) = _
  rw [subAll_cons]
  rw [show matchEnd (hexPat "#9333ea") none
      ('#' :: (("9333ea").toList ++ (';' :: z))) = some (';' :: z) from
    matchEnd_tok_semi z]
  dsimp only
  rw [if_pos (by simp)]
  rw [hsemi]

/-- An occurrence of an overlap-free string survives a substitution pass. -/
theorem infix_subAll_preserved (p : List RElem) (r target : List Char)
    (hlit : litStart p = true) (hover : overlapFree p target = true)
    (t : List Char) (h : target <:+: t) : target <:+: subAll p r t := by
  obtain ⟨u, v, huv⟩ := h
  obtain ⟨w, hw⟩ := subAll_around u.length p r target
    (fun z => target ++ subAll p r z) hlit
    (overlapFree_states p target hover)
    (subAll_copy_target target p r (overlapFree_seam p target hover)) u v le_rfl
  refine ⟨w, subAll p r v, ?_⟩
  rw [← huv]
  simp only [List.append_assoc]
  rw [hw]

/-- An occurrence of a string that is overlap-free for every rule survives a
whole rule-table fold. -/
theorem infix_fixText_preserved :
    ∀ (rs : List Rule) (target : List Char),
      (∀ ru ∈ rs, litStart ru.pat = true ∧ overlapFree ru.pat target = true) →
      ∀ t, target <:+: t → target <:+: fixText rs t := by
  intro rs
  induction rs with
  | nil => intro target _ t h; exact h
  | cons ru rest ih =>
      intro target hall t h
      exact ih target (fun rj hj => hall rj (by simp [hj])) _
        (infix_subAll_preserved ru.pat ru.repl target (hall ru (by simp)).1
          (hall ru (by simp)).2 t h)

/-- One step of the rule fold. -/
theorem fixText_cons (ru : Rule) (rs : List Rule) (s : List Char) :
    fixText (ru :: rs) s = fixText rs (subAll ru.pat ru.repl s) := rfl

/-- A literal-headed pattern ignores the character standing before the text. -/
theorem matchEnd_prev_of_litStart (p : List RElem) (hp : litStart p = true)
    (pv pv' : Option Char) (s : List Char) :
    matchEnd p pv s = matchEnd p pv' s := by
  cases p with
  | nil => simp [litStart] at hp
  | cons e pt =>
      cases e with
      | lit c =>
          cases s with
          | nil => simp
          | cons a t => simp [matchEnd_lit_cons]
      | wb => simp [litStart] at hp
      | wsStar => simp [litStart] at hp
      | wsPlus => simp [litStart] at hp
      | nbPlus => simp [litStart] at hp
      | nbStar => simp [litStart] at hp

/-- A text whose head is not `c` does not start the property pattern. -/
theorem matchEnd_tailPat_not_c (pv : Option Char) (a : Char) (t : List Char)
    (ha : a ≠ 'c') : matchEnd tailPat pv (a :: t) = none := by
  show matchEnd (.lit 'c' :: ((("olor:").toList).map RElem.lit ++
    ([.wsStar] ++ lits "#9333ea;"))) pv (a :: t) = none
  rw [matchEnd_lit_cons, if_neg ha]

/-- When `startsTrip` is false, the property pattern fails at the head, for
any preceding character. -/
theorem startsTrip_false_none (s : List Char) (h : startsTrip s = false)
    (pv : Option Char) : matchEnd tailPat pv s = none := by
  rw [matchEnd_prev_of_litStart tailPat (by decide) pv none]
  simp only [startsTrip] at h
  cases hm : matchEnd tailPat none s with
  | none => rfl
  | some r => rw [hm] at h; simp at h

/-- With no occurrence of the property before the first closing brace, the
greedy repetition state of `[^\x7d]+` fails on the whole text. -/
theorem noTrip_nbStar :
    ∀ (s : List Char), hasTripBF s = false → ∀ pv,
      matchEnd (.nbStar :: tailPat) pv s = none := by
  intro s
  induction s with
  | nil =>
      intro h pv
      rw [matchEnd_nbStar_nil, matchEnd_nil_of_litStart tailPat pv (by decide)]
  | cons a t ih =>
      intro h pv
      rw [matchEnd_nbStar_cons]
      by_cases ha : a = '\x7d'
      · rw [if_pos ha]
        subst ha
        exact matchEnd_tailPat_not_c pv _ t (by decide)
      · rw [if_neg ha]
        simp only [hasTripBF, if_neg ha, Bool.or_eq_false_iff] at h
        rw [ih h.2 (some a)]
        dsimp only
        exact startsTrip_false_none _ h.1 pv

/-- A segment without the letter `c` contains no property occurrence before
the first closing brace, provided the rest of the text does not either. -/
theorem hasTripBF_append :
    ∀ (seg : List Char), (∀ c ∈ seg, c ≠ 'c') →
      ∀ (tail : List Char), hasTripBF tail = false →
        hasTripBF (seg ++ tail) = false := by
  intro seg
  induction seg with
  | nil => intro _ tail h; simpa using h
  | cons a s2 ih =>
      intro hc tail h
      show hasTripBF (a :: (s2 ++ tail)) = false
      simp only [hasTripBF]
      by_cases ha : a = '\x7d'
      · rw [if_pos ha]
      · rw [if_neg ha, Bool.or_eq_false_iff]
        refine ⟨?_, ih (fun c hc2 => hc c (by simp [hc2])) tail h⟩
        simp only [startsTrip]
        rw [matchEnd_tailPat_not_c none a _ (hc a (by simp))]
        rfl

/-- The property pattern `color:\s*#9333ea;` consumes exactly the property
text `color: #9333ea;`. -/
theorem matchEnd_tailPat_colorProp (pv : Option Char) (z : List Char) :
    matchEnd tailPat pv (colorProp ++ z) = some z := by
  have h8 : matchEnd (lits "#9333ea;") (some ' ') ((("#9333ea;").toList) ++ z) =
      some z := by
    have h := matchEnd_lits_append (("#9333ea;").toList) [] (some ' ') z
    rw [List.append_nil] at h
    rw [show lits "#9333ea;" = (("#9333ea;").toList).map RElem.lit from rfl, h,
      matchEnd_nil_pat]
  have h7 : matchEnd (.wsStar :: lits "#9333ea;") (some ' ')
      ((("#9333ea;").toList) ++ z) = some z := by
    show matchEnd (.wsStar :: lits "#9333ea;") (some ' ')
      ('#' :: ((("9333ea;").toList) ++ z)) = some z
    rw [matchEnd_wsStar_skip _ _ _ _ (by decide)]
    exact h8
  show matchEnd ((("color:").toList).map RElem.lit ++ (.wsStar :: lits "#9333ea;"))
    pv (("color:").toList ++ (' ' :: ((("#9333ea;").toList) ++ z))) = some z
  rw [matchEnd_lits_append]
  exact matchEnd_wsStar_consume _ _ ' ' _ z (by decide) h7

/-- Greedy consumption: the repetition swallows a brace-free interior and the
match ends exactly after the next `color: #9333ea;` property. -/
theorem nbStar_greedy :
    ∀ (m : List Char), '\x7d' ∉ m → ∀ (tail : List Char),
      hasTripBF tail = false → ∀ pv,
        matchEnd (.nbStar :: tailPat) pv (m ++ (colorProp ++ tail)) = some tail := by
  intro m
  induction m with
  | nil =>
      intro _ tail h3 pv
      show matchEnd (.nbStar :: tailPat) pv
        ('c' :: ((("olor: #9333ea;").toList) ++ tail)) = some tail
      rw [matchEnd_nbStar_cons, if_neg (by decide)]
      rw [noTrip_nbStar _ (hasTripBF_append (("olor: #9333ea;").toList)
        (by decide) tail h3) (some 'c')]
      dsimp only
      exact matchEnd_tailPat_colorProp pv tail
  | cons a m2 ih =>
      intro hm tail h3 pv
      have ha : a ≠ '\x7d' := fun h => hm (by simp [h])
      show matchEnd (.nbStar :: tailPat) pv
        (a :: (m2 ++ (colorProp ++ tail))) = some tail
      rw [matchEnd_nbStar_cons, if_neg ha]
      rw [ih (fun h => hm (by simp [h])) tail h3 (some a)]

/-- The full `App.css` pattern matches the header, a non-empty brace-free
interior and the colour property, ending exactly after the property. -/
theorem matchEnd_appPat (m tail : List Char) (h1 : '\x7d' ∉ m) (h2 : m ≠ [])
    (h3 : hasTripBF tail = false) :
    matchEnd appPat none (appHdr ++ (m ++ (colorProp ++ tail))) = some tail := by
  show matchEnd (appHdr.map RElem.lit ++ (.nbPlus :: tailPat)) none
    (appHdr ++ (m ++ (colorProp ++ tail))) = some tail
  rw [matchEnd_lits_append]
  cases m with
  | nil => exact absurd rfl h2
  | cons a m2 =>
      have ha : a ≠ '\x7d' := fun h => h1 (by simp [h])
      show matchEnd (.nbPlus :: tailPat) (prevAfter none appHdr)
        (a :: (m2 ++ (colorProp ++ tail))) = some tail
      rw [matchEnd_nbPlus_cons, if_neg ha]
      exact nbStar_greedy m2 (fun h => h1 (by simp [h])) tail h3 (some a)

/-! Claim theorems.  Each of the remaining theorems formalises one claim of
the specification and is self-contained up to the helper lemmas above. -/

/-- Any text containing the exact gradient expression has a gradient-rule
match. -/
theorem hasMatch_gradient_of_occurrence (t : List Char) (h : gradText <:+: t) :
    hasMatch gradientPat t = true := by
  obtain ⟨u, v, huv⟩ := h
  refine hasMatch_of_suffix t (gradText ++ v) gradientPat ?_ ?_
  · rw [← huv, List.append_assoc]
    exact List.suffix_append u (gradText ++ v)
  · rw [matchEnd_gradText]
    rfl

/-- C6: the gradient rule is first in the table; for every text containing
the exact gradient expression the gradient rule replaces it as a single match
(its replacement appears in the output) and no intact gradient expression
survives the gradient rule — hence the later standalone hex rules never see
the gradient's internal hex tokens, and the full pass leaves no intact
gradient expression either. -/
theorem C6_gradient_single_match :
    color_replacements.head? =
      some ⟨gradientPat, ("var(--primary-gradient)").toList⟩ ∧
    (∀ x y : List Char,
      ("var(--primary-gradient)").toList <:+:
        subAll gradientPat (("var(--primary-gradient)").toList)
          (x ++ gradText ++ y)) ∧
    (∀ s : List Char,
      ¬ gradText <:+:
        subAll gradientPat (("var(--primary-gradient)").toList) s) ∧
    (∀ s : List Char, ¬ gradText <:+: fixText color_replacements s) := by
  refine ⟨rfl, ?_, ?_, ?_⟩
  · intro x y
    refine repl_infix_subAll (x ++ gradText ++ y) gradientPat _ (by decide) ?_
    refine hasMatch_gradient_of_occurrence _ ⟨x, y, ?_⟩
    rw [List.append_assoc]
  · intro s h
    have hnm : hasMatch gradientPat
        (subAll gradientPat (("var(--primary-gradient)").toList) s) = false :=
      hasMatch_self_subAll_false gradientPat _ (by decide) (by decide) s
    rw [hasMatch_gradient_of_occurrence _ h] at hnm
    exact absurd hnm (by simp)
  · intro s h
    have hnm : hasMatch gradientPat (fixText color_replacements s) = false := by
      refine hasMatch_fixText_false color_replacements
        (tableSafe_litStart _ color_replacements_safe)
        (tableSafe_overlap _ color_replacements_safe) s
        ⟨gradientPat, ("var(--primary-gradient)").toList⟩ ?_
      simp [color_replacements]
    rw [hasMatch_gradient_of_occurrence _ h] at hnm
    exact absurd hnm (by simp)

/-- Witness for C6 at the concrete gradient text. -/
theorem C6_witness :
    ¬ gradText <:+: fixText color_replacements gradText :=
  C6_gradient_single_match.2.2.2 gradText

/-- C4 counterexample: `g` is not a hexadecimal digit, yet `#9333eag` is not
matched (and not replaced) by the bare-token rule, because `g` is still a
word character and `\b` requires a word boundary. -/
theorem C4_counterexample :
    isHexDigitCh 'g' = false ∧
    hasMatch (hexPat "#9333ea") (("#9333eag").toList) = false ∧
    subAll (hexPat "#9333ea") (("var(--primary)").toList)
        (("#9333eag").toList) = ("#9333eag").toList := by
  decide

/-- C4 (amended): the bare-token rule `#9333ea\b` does not match when the
token is immediately followed by a word character (additional hex digits, or
any other letter, digit or underscore), and it matches — and its replacement
is substituted in — when the token is followed by a non-word character or by
end of text. -/
theorem C4_word_boundary :
    (∀ (c : Char) (y : List Char), isWordCh c = true →
      matchEnd (hexPat "#9333ea") none (("#9333ea").toList ++ c :: y) = none) ∧
    (∀ y : List Char, pwOf y.head? = false →
      matchEnd (hexPat "#9333ea") none (("#9333ea").toList ++ y) = some y) ∧
    (∀ x y : List Char, pwOf y.head? = false →
      ("var(--primary)").toList <:+:
        subAll (hexPat "#9333ea") (("var(--primary)").toList)
          (x ++ ("#9333ea").toList ++ y)) := by
  refine ⟨?_, ?_, ?_⟩
  · intro c y hc
    rw [matchEnd_hexTok]
    simp [pwOf, hc]
  · intro y hy
    rw [matchEnd_hexTok, hy]
    rfl
  · intro x y hy
    refine repl_infix_subAll _ (hexPat "#9333ea") _ (by decide) ?_
    refine hasMatch_of_suffix _ (("#9333ea").toList ++ y) _ ?_ ?_
    · rw [List.append_assoc]
      exact List.suffix_append x _
    · rw [matchEnd_hexTok, hy]
      rfl

/-- Witness for C4 at concrete inputs. -/
theorem C4_witness :
    matchEnd (hexPat "#9333ea") none (("#9333eaff").toList) = none ∧
    matchEnd (hexPat "#9333ea") none (("#9333ea;").toList) =
      some ((";").toList) ∧
    ("var(--primary)").toList <:+:
      subAll (hexPat "#9333ea") (("var(--primary)").toList)
        (("x#9333ea;").toList) :=
  ⟨C4_word_boundary.1 'f' (("f").toList) (by decide),
   C4_word_boundary.2.1 ((";").toList) (by decide),
   C4_word_boundary.2.2 (("x").toList) ((";").toList) (by decide)⟩

/-- C5: the full rewrite pass is idempotent.  Running the substitution engine
a second time over any already-processed text changes nothing and reports a
count of zero (no rule's pattern re-matches any rule's replacement output);
consequently a second `fix_colors_in_file` run on a file produced by a first
run (absent I/O faults) reports it as skipped, performs no write, and returns
`False`. -/
theorem C5_full_pass_idempotent :
    (∀ s : List Char, fixContent ((fixContent s).1) = ((fixContent s).1, 0)) ∧
    (∀ f : FileSt, f.readFails = false → f.writeFails = false →
      fix_colors_in_file ((fix_colors_in_file f).1) =
        ((fix_colors_in_file f).1, Outcome.skipped, false, false)) := by
  have hlits := tableSafe_litStart _ color_replacements_safe
  have hover := tableSafe_overlap _ color_replacements_safe
  have hidem : ∀ s : List Char,
      fixContent ((fixContent s).1) = ((fixContent s).1, 0) := by
    intro s
    have hnm : ∀ ru ∈ color_replacements,
        hasMatch ru.pat (fixText color_replacements s) = false :=
      fun ru h => hasMatch_fixText_false color_replacements hlits hover s ru h
    have h1 : (fixContent s).1 = fixText color_replacements s :=
      foldl_applyRule_fst color_replacements s 0
    show color_replacements.foldl applyRule ((fixContent s).1, 0) =
      ((fixContent s).1, 0)
    rw [h1]
    exact foldl_applyRule_id color_replacements _ 0 hnm
  refine ⟨hidem, ?_⟩
  intro f hrf hwf
  rcases hfc : fixContent f.content with ⟨nc, ch⟩
  have hidem2 : fixContent nc = (nc, 0) := by
    have h := hidem f.content
    rw [hfc] at h
    exact h
  by_cases hne : nc = f.content
  · have h1 : fix_colors_in_file f = (f, Outcome.skipped, false, false) := by
      simp [fix_colors_in_file, fix_colors_core, readF, hrf, hfc, hne]
    rw [h1]
    simp [fix_colors_in_file, fix_colors_core, readF, hrf, hfc, hne]
  · have h1 : fix_colors_in_file f =
        ({ f with content := nc }, Outcome.changed ch, true, true) := by
      simp [fix_colors_in_file, fix_colors_core, readF, hrf, writeF, hwf, hfc, hne]
    rw [h1]
    simp [fix_colors_in_file, fix_colors_core, readF, hrf, hidem2]

/-- Witness for C5 at a concrete file. -/
theorem C5_witness :
    fix_colors_in_file
        ((fix_colors_in_file ⟨("color: #9333ea;").toList, false, false⟩).1) =
      ((fix_colors_in_file ⟨("color: #9333ea;").toList, false, false⟩).1,
        Outcome.skipped, false, false) :=
  C5_full_pass_idempotent.2 ⟨("color: #9333ea;").toList, false, false⟩ rfl rfl

/-- C7: the reported per-file count is the sum, over the rules in order, of
the matches of each rule's pattern in that rule's pre-replacement input text,
and a rule with zero matches contributes 0 and leaves the text unchanged. -/
theorem C7_reported_count :
    (∀ s : List Char, (fixContent s).2 = specCount color_replacements s) ∧
    (∀ ru ∈ color_replacements, ∀ s : List Char, cnt ru.pat s = 0 →
      subAll ru.pat ru.repl s = s) := by
  constructor
  · intro s
    have h := foldl_applyRule_eq_countStep color_replacements
      (tableSafe_litStart _ color_replacements_safe)
      (tableSafe_headDiff _ color_replacements_safe) s 0
    show (color_replacements.foldl applyRule (s, 0)).2 = specCount color_replacements s
    rw [h]
    rfl
  · intro ru hru s hc
    apply subAll_id_of_no_match
    cases hq : hasMatch ru.pat s with
    | false => rfl
    | true =>
        have hpos := cnt_pos_of_hasMatch s ru.pat
          (tableSafe_litStart _ color_replacements_safe ru hru) hq
        omega

/-- Witness for C7 at a concrete rule and text. -/
theorem C7_witness :
    cnt gradientPat ("x").toList = 0 ∧
      subAll gradientPat ("var(--primary-gradient)").toList ("x").toList =
        ("x").toList :=
  ⟨by decide,
    C7_reported_count.2 ⟨gradientPat, ("var(--primary-gradient)").toList⟩
      (by simp [color_replacements]) ("x").toList (by decide)⟩

/-- C2 counterexample: a read error on `App.css` is not caught anywhere — the
run aborts with an uncaught exception instead of reporting the file and
continuing, contradicting the claim that every per-file error is contained. -/
theorem C2_counterexample :
    main ⟨none, none, some ⟨[], true, false⟩⟩ = .error () := rfl

/-- C2 (amended): read/write errors in the component-directory and dark-mode
phases are caught per file inside `fix_colors_in_file`, reported as that
file's outcome, and never abort the run — the run aborts only when the
special-cased `App.css` phase hits an uncaught read or write error. -/
theorem C2_error_containment :
    (∀ f : FileSt, f.readFails = true →
      fix_colors_in_file f = (f, Outcome.errored, false, false)) ∧
    (∀ f : FileSt, f.readFails = false → f.writeFails = true →
      (fixContent f.content).1 ≠ f.content →
      fix_colors_in_file f = (f, Outcome.errored, false, false)) ∧
    (∀ fs : FS, fs.appCss = none → (main fs).isOk = true) ∧
    (∀ fs : FS, ∀ f : FileSt, fs.appCss = some f → f.readFails = false →
      f.writeFails = false → (main fs).isOk = true) ∧
    (∀ fs : FS, ∀ f : FileSt, fs.appCss = some f →
      (f.readFails = true ∨ f.writeFails = true) → main fs = .error ()) := by
  refine ⟨?_, ?_, ?_, ?_, ?_⟩
  · intro f hrf
    simp [fix_colors_in_file, fix_colors_core, readF, hrf]
  · intro f hrf hwf hne
    simp [fix_colors_in_file, fix_colors_core, readF, hrf, writeF, hwf, hne]
  · intro fs h
    simp only [main, processApp, h]
    rfl
  · intro fs f h hrf hwf
    simp only [main, processApp, h, readF, hrf, Bool.false_eq_true, if_neg, writeF,
      hwf]
    rfl
  · intro fs f h herr
    rcases herr with hrf | hwf
    · simp only [main, processApp, h, readF, hrf]
      rfl
    · cases hrf : f.readFails with
      | true =>
          simp only [main, processApp, h, readF, hrf]
          rfl
      | false =>
          simp only [main, processApp, h, readF, hrf, Bool.false_eq_true, if_neg,
            writeF, hwf]
          rfl

/-- Witness for C2 (amended) at concrete files and filesystems. -/
theorem C2_witness :
    fix_colors_in_file ⟨[], true, false⟩ =
      (⟨[], true, false⟩, Outcome.errored, false, false) ∧
    (main ⟨none, none, some ⟨[], false, false⟩⟩).isOk = true ∧
    main ⟨none, none, some ⟨[], true, false⟩⟩ = .error () :=
  ⟨C2_error_containment.1 ⟨[], true, false⟩ rfl,
   C2_error_containment.2.2.2.1 ⟨none, none, some ⟨[], false, false⟩⟩
     ⟨[], false, false⟩ rfl rfl rfl,
   C2_error_containment.2.2.2.2 ⟨none, none, some ⟨[], true, false⟩⟩
     ⟨[], true, false⟩ rfl (Or.inl rfl)⟩

/-- C3 counterexample: `App.css` is written back unconditionally, without the
byte-for-byte comparison.  Here its content is left unchanged by the scoped
rewrite, so by the claim no write should occur; but the script still writes,
and with a failing write the whole run errors out. -/
theorem C3_counterexample :
    appSub (("body").toList) = ("body").toList ∧
    main ⟨none, none, some ⟨("body").toList, false, true⟩⟩ = .error () := by
  constructor
  · decide
  · rfl

/-- C3 (amended): for the files processed through `fix_colors_in_file`
(component directory and dark-mode), the final text is compared with the
original and a write occurs exactly when they differ, an identical result
being reported as skipped; the special-cased `App.css`, however, is written
back unconditionally — even when the rewrite left the text identical — so a
write fault there always surfaces. -/
theorem C3_conditional_write :
    (∀ f : FileSt, f.readFails = false → f.writeFails = false →
      ((fix_colors_in_file f).2.2.1 = true ↔
        (fixContent f.content).1 ≠ f.content)) ∧
    (∀ f : FileSt, f.readFails = false → (fixContent f.content).1 = f.content →
      fix_colors_in_file f = (f, Outcome.skipped, false, false)) ∧
    (∀ f : FileSt, f.readFails = false → f.writeFails = false →
      processApp (some f) =
        .ok (some { f with content := appSub f.content }, [Outcome.spinnerFixed])) ∧
    (∀ f : FileSt, f.readFails = false → f.writeFails = true →
      processApp (some f) = .error ()) := by
  refine ⟨?_, ?_, ?_, ?_⟩
  · intro f hrf hwf
    by_cases hne : (fixContent f.content).1 = f.content
    · simp [fix_colors_in_file, fix_colors_core, readF, hrf, hne]
    · simp [fix_colors_in_file, fix_colors_core, readF, hrf, writeF, hwf, hne]
  · intro f hrf heq
    simp [fix_colors_in_file, fix_colors_core, readF, hrf, heq]
  · intro f hrf hwf
    simp [processApp, readF, hrf, writeF, hwf]
  · intro f hrf hwf
    simp [processApp, readF, hrf, writeF, hwf]

/-- Witness for C3 (amended) at concrete files. -/
theorem C3_witness :
    fix_colors_in_file ⟨("x").toList, false, false⟩ =
      (⟨("x").toList, false, false⟩, Outcome.skipped, false, false) ∧
    processApp (some ⟨("body").toList, false, false⟩) =
      .ok (some ⟨("body").toList, false, false⟩, [Outcome.spinnerFixed]) := by
  constructor
  · exact C3_conditional_write.2.1 ⟨("x").toList, false, false⟩ rfl (by decide)
  · have h := C3_conditional_write.2.2.1 ⟨("body").toList, false, false⟩ rfl rfl
    rw [h]
    have happ : appSub (("body").toList) = ("body").toList := by decide
    rw [happ]

/-- C8: when the component directory does not exist, that phase processes
nothing and reports nothing (in particular no errors), and the run proceeds
to the dark-mode and `App.css` phases exactly as usual. -/
theorem C8_missing_component_dir (fs : FS) (h : fs.components = none) :
    processComponents fs.components = (none, []) ∧
    main fs = (match processApp fs.appCss with
      | Except.error e => Except.error e
      | Except.ok a =>
          Except.ok (⟨none, (processDark fs.darkMode).1, a.1⟩,
            ([], (processDark fs.darkMode).2, a.2))) := by
  constructor
  · rw [h]
    rfl
  · obtain ⟨c1, c2, c3⟩ := fs
    have h2 : c1 = none := h
    subst h2
    rfl

/-- Witness for C8 at a concrete filesystem. -/
theorem C8_witness :
    processComponents (none : Option (List (String × FileSt))) = (none, []) ∧
    main ⟨none, none, none⟩ = .ok (⟨none, none, none⟩, ([], [], [])) := by
  have h := C8_missing_component_dir ⟨none, none, none⟩ rfl
  refine ⟨h.1, ?_⟩
  rw [h.2]
  rfl

/-- C10: `fix_colors_in_file` is a total function returning its flag for
every file — an exception never escapes; the returned flag is `True` exactly
when the content changed and was successfully rewritten, and it is `False`
both when no rule matched (content unchanged) and when a read or write error
occurred, so the caller cannot distinguish an error from a no-change skip. -/
theorem C10_boolean_return :
    (∀ f : FileSt, (fix_colors_in_file f).2.2.2 = true ↔
      (f.readFails = false ∧ f.writeFails = false ∧
        (fixContent f.content).1 ≠ f.content)) ∧
    (∀ f : FileSt, f.readFails = true →
      fix_colors_in_file f = (f, Outcome.errored, false, false)) ∧
    (∀ f : FileSt, f.readFails = false → (fixContent f.content).1 = f.content →
      fix_colors_in_file f = (f, Outcome.skipped, false, false)) := by
  refine ⟨?_, ?_, ?_⟩
  · intro f
    cases hrf : f.readFails with
    | true => simp [fix_colors_in_file, fix_colors_core, readF, hrf]
    | false =>
        by_cases hne : (fixContent f.content).1 = f.content
        · simp [fix_colors_in_file, fix_colors_core, readF, hrf, hne]
        · cases hwf : f.writeFails with
          | true =>
              simp [fix_colors_in_file, fix_colors_core, readF, hrf, writeF, hwf,
                hne]
          | false =>
              simp [fix_colors_in_file, fix_colors_core, readF, hrf, writeF, hwf,
                hne]
  · intro f hrf
    simp [fix_colors_in_file, fix_colors_core, readF, hrf]
  · intro f hrf heq
    simp [fix_colors_in_file, fix_colors_core, readF, hrf, heq]

/-- Witness for C10 at concrete files: an errored file and an unmatched file
both return `False`. -/
theorem C10_witness :
    fix_colors_in_file ⟨("x").toList, true, false⟩ =
      (⟨("x").toList, true, false⟩, Outcome.errored, false, false) ∧
    fix_colors_in_file ⟨("x").toList, false, false⟩ =
      (⟨("x").toList, false, false⟩, Outcome.skipped, false, false) :=
  ⟨C10_boolean_return.2.1 ⟨("x").toList, true, false⟩ rfl,
   C10_boolean_return.2.2 ⟨("x").toList, false, false⟩ rfl (by decide)⟩

set_option maxHeartbeats 1600000 in
/-- C1 counterexample: an `.app-loading-spinner` block holding a `width`
property between the opening brace and the colour property; the scoped
rewrite deletes that property instead of leaving it untouched. -/
theorem C1_counterexample :
    ("width: 40px;").toList <:+:
      (appHdr ++ ((("\n  width: 40px;\n  ").toList) ++
        (colorProp ++ (("\n  height: 40px;\n\x7d").toList)))) ∧
    ¬ ("width: 40px;").toList <:+:
      appSub (appHdr ++ ((("\n  width: 40px;\n  ").toList) ++
        (colorProp ++ (("\n  height: 40px;\n\x7d").toList)))) := by decide

/-- C1 (amended): the scoped `App.css` rewrite replaces the whole matched
span — the block header, every property standing between the opening brace
and the `color: #9333ea;` property, and that property itself — by the fixed
header plus `color: var(--primary);`: the interior properties are deleted,
while everything after the colour property (later properties and the closing
brace) is left untouched. -/
theorem C1_app_scoped (m tail : List Char) (h1 : '\x7d' ∉ m) (h2 : m ≠ [])
    (h3 : hasTripBF tail = false) (h4 : hasMatch appPat tail = false) :
    appSub (appHdr ++ (m ++ (colorProp ++ tail))) = appRepl ++ tail := by
  have h6 := matchEnd_appPat m tail h1 h2 h3
  show subAll appPat appRepl
    ('.' :: ((("app-loading-spinner \x7b").toList) ++ (m ++ (colorProp ++ tail)))) =
    appRepl ++ tail
  rw [subAll_cons]
  rw [show matchEnd appPat none
      ('.' :: ((("app-loading-spinner \x7b").toList) ++ (m ++ (colorProp ++ tail)))) =
      some tail from h6]
  dsimp only
  rw [if_pos (by simp only [List.length_append]; omega)]
  rw [subAll_id_of_no_match tail appPat appRepl h4]

/-- Witness for C1 (amended) at a concrete spinner block. -/
theorem C1_witness :
    appSub (appHdr ++ ((("\n  width: 40px;\n  ").toList) ++
        (colorProp ++ (("\n  height: 40px;\n\x7d").toList)))) =
      appRepl ++ (("\n  height: 40px;\n\x7d").toList) :=
  C1_app_scoped (("\n  width: 40px;\n  ").toList)
    (("\n  height: 40px;\n\x7d").toList)
    (by decide) (by decide) (by decide) (by decide)


set_option maxHeartbeats 1600000 in
/-- C9: for every file text containing `color: #9333ea;` (outside the special
block — the general table knows nothing of blocks), the full general pass
rewrites that occurrence to `color: var(--primary);`: the rewritten property
text appears in the output, the original property text never survives, and on
the property text alone the engine reports exactly one change. -/
theorem C9_color_property :
    (∀ s : List Char, colorProp <:+: s →
      colorPropNew <:+: fixText color_replacements s) ∧
    (∀ s : List Char, ¬ colorProp <:+: fixText color_replacements s) ∧
    fixContent colorProp = (colorPropNew, 1) := by
  have hcr : color_replacements =
      ⟨gradientPat, ("var(--primary-gradient)").toList⟩ ::
      (⟨hexPat "#9333ea", ("var(--primary)").toList⟩ : Rule) ::
      color_replacements.drop 2 := rfl
  have hfx : ∀ t : List Char, fixText color_replacements t =
      fixText (color_replacements.drop 2)
        (subAll (hexPat "#9333ea") (("var(--primary)").toList)
          (subAll gradientPat (("var(--primary-gradient)").toList) t)) := by
    intro t
    rw [hcr, fixText_cons, fixText_cons]
    rfl
  refine ⟨?_, ?_, ?_⟩
  · intro s hinf
    obtain ⟨u, v, huv⟩ := hinf
    obtain ⟨w1, hw1⟩ := subAll_around u.length gradientPat
      (("var(--primary-gradient)").toList) colorProp
      (fun z => colorProp ++ subAll gradientPat
        (("var(--primary-gradient)").toList) z)
      (by decide) (statesAll_unpack _ _ (by decide))
      (subAll_copy_target colorProp gradientPat _ (tailsAll_unpack _ _ (by decide)))
      u v le_rfl
    have hs1 : subAll gradientPat (("var(--primary-gradient)").toList) s =
        w1 ++ (colorProp ++ subAll gradientPat
          (("var(--primary-gradient)").toList) v) := by
      rw [← huv]
      simp only [List.append_assoc] at hw1 ⊢
      exact hw1
    obtain ⟨w2, hw2⟩ := subAll_around w1.length (hexPat "#9333ea")
      (("var(--primary)").toList) colorProp
      (fun z => ("color: ").toList ++ (("var(--primary)").toList ++
        (';' :: subAll (hexPat "#9333ea") (("var(--primary)").toList) z)))
      (by decide) (statesAll_unpack _ _ (by decide)) subAll_occ w1
      (subAll gradientPat (("var(--primary-gradient)").toList) v) le_rfl
    have hs2 : subAll (hexPat "#9333ea") (("var(--primary)").toList)
        (subAll gradientPat (("var(--primary-gradient)").toList) s) =
        w2 ++ (colorPropNew ++
          subAll (hexPat "#9333ea") (("var(--primary)").toList)
            (subAll gradientPat (("var(--primary-gradient)").toList) v)) := by
      rw [hs1, hw2]
      rfl
    have hinf2 : colorPropNew <:+:
        subAll (hexPat "#9333ea") (("var(--primary)").toList)
          (subAll gradientPat (("var(--primary-gradient)").toList) s) :=
      ⟨w2, subAll (hexPat "#9333ea") (("var(--primary)").toList)
            (subAll gradientPat (("var(--primary-gradient)").toList) v),
       by rw [List.append_assoc]; exact hs2.symm⟩
    have hall : ((color_replacements.drop 2).all fun ru =>
        litStart ru.pat && overlapFree ru.pat colorPropNew) = true := by decide
    rw [List.all_eq_true] at hall
    rw [hfx s]
    refine infix_fixText_preserved (color_replacements.drop 2) colorPropNew
      (fun ru hru => ?_) _ hinf2
    have h2 := hall ru hru
    rw [Bool.and_eq_true] at h2
    exact h2
  · intro s h
    obtain ⟨u, v, huv⟩ := h
    have hnm : hasMatch (hexPat "#9333ea") (fixText color_replacements s) =
        false := by
      refine hasMatch_fixText_false color_replacements
        (tableSafe_litStart _ color_replacements_safe)
        (tableSafe_overlap _ color_replacements_safe) s
        ⟨hexPat "#9333ea", ("var(--primary)").toList⟩ ?_
      simp [color_replacements]
    have hsuf : ("#9333ea").toList ++ (';' :: v) <:+
        fixText color_replacements s := by
      refine ⟨u ++ ("color: ").toList, ?_⟩
      rw [← huv]
      show u ++ ("color: ").toList ++ (("#9333ea").toList ++ (';' :: v)) =
        u ++ colorProp ++ v
      simp only [List.append_assoc]
      rfl
    have htrue : hasMatch (hexPat "#9333ea") (fixText color_replacements s) =
        true := by
      refine hasMatch_of_suffix _ _ _ hsuf ?_
      rw [matchEnd_tok_semi]
      rfl
    rw [htrue] at hnm
    exact absurd hnm (by simp)
  · decide

/-- Witness for C9 at the concrete property text. -/
theorem C9_witness :
    colorPropNew <:+: fixText color_replacements colorProp :=
  C9_color_property.1 colorProp ⟨[], [], by simp⟩

end FixColors
